import Mathlib

/-!
Verification of the core reactivity / scheduling / keyed-diff engine of the
repository (a Vue-3-style UI core).  Each section embeds one part of the
source shallowly in Lean and the theorems at the end settle the claims.

Sources embedded here:
* `getSequence` and the move/mount loop of `patchKeyedChildren`
  (renderer, `src/unnamed/part_007`);
* the dependency-marker machinery `initDepMarkers` / `trackEffects` /
  `finalizeDepMarkers` and `ReactiveEffect.run`
  (`src/packages/reactivity/src/baseHandlers.ts`, effect/dep portion);
* the job scheduler (`src/packages/runtime-core/src/scheduler.ts`);
* `ComputedRefImpl` (`src/packages/reactivity/src/computed.ts`);
* `createReactiveObject` / `toRaw` (`src/packages/reactivity/src/reactive.ts`);
* `RefImpl.set value` (`src/unnamed/part_000`);
* `MutableReactiveHandler.set` (`src/packages/reactivity/src/baseHandlers.ts`).

JavaScript mutable arrays are embedded as Lean lists (indexing via `List.getD`,
which models the in-range accesses the code performs), in-place array writes as
`List.set`/function update, and `while` loops whose variant is a decreasing
numeric measure as fuel recursion where the fuel is exactly that measure.
-/

set_option maxHeartbeats 1000000

/-- Pointwise update of a function, modelling an in-place array write `p[i] = v`
(`p` is index-addressed storage in the source). -/
def fupd {α : Type} (p : Nat → α) (i : Nat) (v : α) : Nat → α :=
  fun k => if k = i then v else p k

/-! ## Section 1: `getSequence` — longest increasing subsequence (part_007) -/

/-- The `while (u < v)` binary-search loop inside `getSequence`.  The fuel is
the measure `v - u`, which strictly decreases on every iteration, so the fuel
version computes exactly what the loop computes. -/
def lisSearchAux (arr result : List Nat) (x : Nat) : Nat → Nat → Nat → Nat
  | 0, u, _ => u
  | fuel + 1, u, v =>
    if u < v then
      let c := (u + v) / 2
      if arr.getD (result.getD c 0) 0 < x then lisSearchAux arr result x fuel (c + 1) v
      else lisSearchAux arr result x fuel u c
    else u

/-- `u = 0; v = result.length - 1; while (u < v) {...}; u` from `getSequence`. -/
def lisSearch (arr result : List Nat) (x u v : Nat) : Nat :=
  lisSearchAux arr result x (v - u) u v

/-- One iteration of the main `for` loop of `getSequence`, acting on the state
`(p, result)` at loop index `i`. -/
def lisStep (arr : List Nat) (st : (Nat → Nat) × List Nat) (i : Nat) :
    (Nat → Nat) × List Nat :=
  let p := st.1
  let result := st.2
  let arrI := arr.getD i 0
  if arrI ≠ 0 then
    let j := result.getD (result.length - 1) 0
    if arr.getD j 0 < arrI then
      (fupd p i j, result ++ [i])
    else
      let u := lisSearch arr result arrI 0 (result.length - 1)
      if arrI < arr.getD (result.getD u 0) 0 then
        (if 0 < u then fupd p i (result.getD (u - 1) 0) else p, result.set u i)
      else (p, result)
  else (p, result)

/-- The whole main loop of `getSequence`: `p = arr.slice()`, `result = [0]`,
then the loop over `i = 0 .. arr.length - 1`. -/
def lisLoop (arr : List Nat) : (Nat → Nat) × List Nat :=
  (List.range arr.length).foldl (lisStep arr) ((fun k => arr.getD k 0), [0])

/-- The parent-pointer chain `[v, p v, p (p v), ...]` of length `n`.  The final
backtracking loop of `getSequence` overwrites `result` with exactly the reverse
of this chain (the last junk read `v = p[v]` of the loop is discarded). -/
def lisChain (p : Nat → Nat) : Nat → Nat → List Nat
  | _, 0 => []
  | v, k + 1 => v :: lisChain p (p v) k

/-- `getSequence(arr)` from the renderer: patience-style longest increasing
subsequence over the non-zero entries of `arr`, seeded with index 0. -/
def getSequence (arr : List Nat) : List Nat :=
  let st := lisLoop arr
  (lisChain st.1 (st.2.getD (st.2.length - 1) 0) st.2.length).reverse

/-! ## Section 2: move/mount phase (step 5.3) of `patchKeyedChildren` -/

/-- What the backward loop of step 5.3 does with one new-remainder position:
mount it fresh, move it, or leave it untouched. -/
inductive DiffAction where
  | mount
  | move
  | keep
deriving DecidableEq, Repr

/-- The `for (i = toBePatched - 1; i >= 0; i--)` loop of `patchKeyedChildren`
step 5.3 in the `moved` case, recorded as the action taken at each position.
`map` is `newIndexToOldIndexMap`, `seq` is `increasingNewIndexSequence`, and
the `Int`-valued `j` is the pointer into `seq` (it goes to `-1`).
Recursion is structural on the loop counter. -/
def moveLoopAux (map seq : List Nat) : Nat → Int → List (Nat × DiffAction)
  | 0, _ => []
  | i + 1, j =>
    if map.getD i 0 = 0 then
      (i, DiffAction.mount) :: moveLoopAux map seq i j
    else if j < 0 ∨ (i : Int) ≠ ((seq.getD j.toNat 0 : Nat) : Int) then
      (i, DiffAction.move) :: moveLoopAux map seq i j
    else
      (i, DiffAction.keep) :: moveLoopAux map seq i (j - 1)

/-- The whole step-5.3 loop (in the `moved = true` case):
`j = increasingNewIndexSequence.length - 1`, `i` from `toBePatched - 1` down. -/
def moveMountLoop (map seq : List Nat) : List (Nat × DiffAction) :=
  moveLoopAux map seq map.length ((seq.length : Int) - 1)

/-! ### Specification predicates for the LIS claims -/

/-- `s` is an index list describing a strictly increasing subsequence of the
non-zero entries of the first `t` elements of `arr`: indices strictly
increase, stay below `t`, select non-zero entries, and the selected values
strictly increase. -/
def NZIncr (arr : List Nat) (t : Nat) (s : List Nat) : Prop :=
  s.Pairwise (· < ·) ∧ (∀ i ∈ s, i < t ∧ arr.getD i 0 ≠ 0) ∧
    s.Pairwise (fun i j => arr.getD i 0 < arr.getD j 0)

/-- The mirrored property for a parent-pointer chain (indices and values
strictly decrease along the list); the reverse of such a chain is `NZIncr`. -/
def ChainDec (arr : List Nat) (t : Nat) (c : List Nat) : Prop :=
  c.Pairwise (fun i j => j < i) ∧ (∀ i ∈ c, i < t ∧ arr.getD i 0 ≠ 0) ∧
    c.Pairwise (fun i j => arr.getD j 0 < arr.getD i 0)

/-- Loop invariant of `getSequence`'s main loop after the indices `< t` have
been processed (under the side condition `arr[0] ≠ 0` the seeded index 0 is a
legitimate element).  `result` holds, for each length `k+1`, the index whose
value is the minimal possible tail of a length-`k+1` increasing subsequence,
and `p` holds parent pointers realising witnesses. -/
structure LisInv (arr : List Nat) (t : Nat) (p : Nat → Nat) (result : List Nat) : Prop where
  ne : result ≠ []
  mem : ∀ k < result.length, result.getD k 0 < t ∧ arr.getD (result.getD k 0) 0 ≠ 0
  tails : ∀ k l, k < l → l < result.length →
    arr.getD (result.getD k 0) 0 < arr.getD (result.getD l 0) 0
  chains : ∀ k < result.length, ChainDec arr t (lisChain p (result.getD k 0) (k + 1))
  bound : ∀ s, NZIncr arr t s → s.length ≤ result.length ∧
    (1 ≤ s.length → arr.getD (result.getD (s.length - 1) 0) 0 ≤ arr.getD (s.getD (s.length - 1) 0) 0)

/-- The action the step-5.3 loop is expected to take at position `i`:
fresh mount when no old node is mapped, untouched when `i` belongs to the
increasing subsequence, moved otherwise. -/
def diffActionAt (map seq : List Nat) (i : Nat) : DiffAction :=
  if map.getD i 0 = 0 then DiffAction.mount
  else if i ∈ seq then DiffAction.keep else DiffAction.move

/-! ## Section 3: dependency generation markers (dep.w / dep.n, effect run) -/

/-- One dependency set (`Dep`): the two generation bitmasks `w`/`n` and whether
the subscriber under consideration is currently a member of the set. -/
structure DepData where
  w : Nat
  n : Nat
  hasEff : Bool
deriving DecidableEq, Repr

/-- The per-run state: every key's dependency set, plus the subscriber's own
`deps` list (the keys of the sets it belongs to). -/
structure EffSt where
  deps : Nat → DepData
  effDeps : List Nat

/-- `wasTracked`: `(dep.w & trackOpBit) > 0`. -/
def wasTracked (dep : DepData) (bit : Nat) : Bool := decide (0 < dep.w &&& bit)

/-- `newTracked`: `(dep.n & trackOpBit) > 0`. -/
def newTracked (dep : DepData) (bit : Nat) : Bool := decide (0 < dep.n &&& bit)

/-- `initDepMarkers`: set `deps[i].w |= trackOpBit` for every tracked dep. -/
def initDepMarkers (bit : Nat) (st : EffSt) : EffSt :=
  { st with deps := fun k =>
      if k ∈ st.effDeps then { st.deps k with w := (st.deps k).w ||| bit } else st.deps k }

/-- `trackEffects` for one read of key `k` during the run (the `shouldTrack`
local of the source, computed from the markers, decides set insertion). -/
def trackEffects (bit : Nat) (st : EffSt) (k : Nat) : EffSt :=
  let dep := st.deps k
  if !(newTracked dep bit) then
    let dep1 : DepData := { dep with n := dep.n ||| bit }
    if !(wasTracked dep bit) then
      { deps := fupd st.deps k { dep1 with hasEff := true }, effDeps := st.effDeps ++ [k] }
    else { st with deps := fupd st.deps k dep1 }
  else st

/-- One iteration of the `finalizeDepMarkers` loop: delete stale memberships,
clear both generation bits, keep surviving deps (the `ptr` compaction). -/
def finalizeStep (bit : Nat) (acc : (Nat → DepData) × List Nat) (k : Nat) :
    (Nat → DepData) × List Nat :=
  let dep := acc.1 k
  let stale := wasTracked dep bit && !(newTracked dep bit)
  let dep2 : DepData :=
    { w := Nat.ldiff dep.w bit, n := Nat.ldiff dep.n bit,
      hasEff := if stale then false else dep.hasEff }
  (fupd acc.1 k dep2, if stale then acc.2 else acc.2 ++ [k])

/-- `finalizeDepMarkers`: fold the per-dep step over the subscriber's deps. -/
def finalizeDepMarkers (bit : Nat) (st : EffSt) : EffSt :=
  let r := st.effDeps.foldl (finalizeStep bit) (st.deps, [])
  { deps := r.1, effDeps := r.2 }

/-- The marker life cycle of one completed `ReactiveEffect.run()` at generation
bit `bit`, whose body reads the keys `reads` in order: `initDepMarkers`, the
tracked reads, then `finalizeDepMarkers` in the cleanup phase. -/
def runEffect (bit : Nat) (reads : List Nat) (st : EffSt) : EffSt :=
  finalizeDepMarkers bit (reads.foldl (trackEffects bit) (initDepMarkers bit st))

/-- Well-formedness between runs: the deps list has no duplicates, membership
of the subscriber matches it, and nobody carries the generation bit. -/
def EffWF (bit : Nat) (st : EffSt) : Prop :=
  st.effDeps.Nodup ∧ (∀ k, (st.deps k).hasEff = true ↔ k ∈ st.effDeps) ∧
    (∀ k, (st.deps k).w &&& bit = 0 ∧ (st.deps k).n &&& bit = 0)

/-! ## Section 4: job scheduler (scheduler.ts) -/

/-- A `SchedulerJob`: priority id (`none` = no id = `Infinity`), pre-phase
flag, active flag (`active !== false`), `allowRecurse`, and an identity key
(distinct `key`s model distinct function identities). -/
structure SchedulerJob where
  id : Option Nat
  pre : Bool
  active : Bool
  allowRecurse : Bool
  key : Nat
deriving DecidableEq, Repr

def defaultJob : SchedulerJob := ⟨none, false, true, false, 0⟩

/-- `comparator(a, b) <= 0` as a Boolean relation.  `getId` maps a missing id
to `Infinity`; two missing ids subtract to `NaN`, which the sort treats as
"keep either order", i.e. both directions compare `≤`. -/
def jobLe (a b : SchedulerJob) : Bool :=
  match a.id, b.id with
  | none, none => true
  | none, some _ => false
  | some _, none => true
  | some x, some y => if x = y then !(b.pre && !a.pre) else decide (x ≤ y)

/-- `findInsertionIndex`'s binary-search loop; the fuel is the measure
`end - start`, which strictly decreases each iteration. -/
def findInsertionIndexAux (queue : List SchedulerJob) (id : Nat) :
    Nat → Nat → Nat → Nat
  | 0, start, _ => start
  | fuel + 1, start, stop =>
    if start < stop then
      let middle := (start + stop) / 2
      let middleJob := queue.getD middle defaultJob
      if (match middleJob.id with | none => false | some v => decide (v < id)) ||
          (decide (middleJob.id = some id) && middleJob.pre) then
        findInsertionIndexAux queue id fuel (middle + 1) stop
      else findInsertionIndexAux queue id fuel start middle
    else start

/-- `findInsertionIndex(id)`: binary search starting at `flushIndex + 1`. -/
def findInsertionIndex (queue : List SchedulerJob) (flushIndex id : Nat) : Nat :=
  findInsertionIndexAux queue id (queue.length - (flushIndex + 1)) (flushIndex + 1) queue.length

/-- `queueJob`: dedup via `queue.includes(job, startIdx)`, then push (no id) or
splice at the binary-search position (JS `splice` clamps the index to the
array length). -/
def queueJob (queue : List SchedulerJob) (flushIndex : Nat) (isFlushing : Bool)
    (job : SchedulerJob) : List SchedulerJob :=
  if queue.length = 0 ∨
      job ∉ queue.drop (if isFlushing && job.allowRecurse then flushIndex + 1 else flushIndex) then
    match job.id with
    | none => queue ++ [job]
    | some id => queue.insertIdx (min (findInsertionIndex queue flushIndex id) queue.length) job
  else queue

/-- A sequence of `queueJob` calls made while the scheduler is idle
(`isFlushing = false`, `flushIndex = 0`), starting from the empty queue:
the pending phase of one flush cycle. -/
def enqueueAll (jobs : List SchedulerJob) : List SchedulerJob :=
  jobs.foldl (fun q job => queueJob q 0 false job) []

/-- `jobLe` as a `Prop` relation for the sort. -/
def jobLeP (a b : SchedulerJob) : Prop := jobLe a b = true

instance : DecidableRel jobLeP := fun a b => inferInstanceAs (Decidable (jobLe a b = true))

/-- `queue.sort(comparator)` at the start of `flushJobs`, modelled by a
comparator-correct sort with the same comparison relation. -/
def flushOrder (queue : List SchedulerJob) : List SchedulerJob :=
  queue.insertionSort jobLeP

/-- The jobs `flushJobs` actually executes, in execution order: the sorted
queue filtered by the `job.active !== false` run-time check. -/
def flushedJobs (queue : List SchedulerJob) : List SchedulerJob :=
  (flushOrder queue).filter (fun job => job.active)

/-- The execution-order guarantee claimed for the scheduler: ids ascend
(`none` after every numbered id), and among equal numbered ids a non-pre job
never precedes a pre job. -/
def jobOrdered (a b : SchedulerJob) : Prop :=
  match a.id, b.id with
  | none, none => True
  | none, some _ => False
  | some _, none => True
  | some x, some y => x < y ∨ (x = y ∧ (b.pre = true → a.pre = true))

/-! ## Section 5: computed cells (computed.ts) -/

/-- Observable state of one `ComputedRefImpl` (non-SSR, so `_cacheable` is
`true`): the `_dirty` flag, cached `_value`, and instrumentation counters for
getter executions (`effect.run()`) and scheduler notifications
(`triggerRefValue`). -/
structure ComputedState where
  dirty : Bool
  cached : Nat
  runs : Nat
  notifies : Nat
deriving DecidableEq, Repr

/-- `get value`: always tracks (not modelled here), then if `_dirty` clears it
and recomputes via `effect.run()`, i.e. the user getter on the current
dependency source value. -/
def computedRead (getter : Nat → Nat) (src : Nat) (st : ComputedState) :
    ComputedState × Nat :=
  if st.dirty then
    ({ st with dirty := false, cached := getter src, runs := st.runs + 1 }, getter src)
  else (st, st.cached)

/-- The scheduler installed in the `ComputedRefImpl` constructor: on
invalidation, only if not already dirty, set `_dirty` and notify the cell's
own dependency set (`triggerRefValue`). -/
def computedInvalidate (st : ComputedState) : ComputedState :=
  if !st.dirty then { st with dirty := true, notifies := st.notifies + 1 } else st

/-! ## Section 6: reactive wrappers (reactive.ts) -/

inductive ObjKind where
  | objectK
  | arrayK
  | mapK
  | setK
  | weakMapK
  | weakSetK
  | otherK
deriving DecidableEq, Repr

/-- Which of the four wrapper variants (`reactive` / `shallowReactive` /
`readonly` / `shallowReadonly`) a proxy belongs to; it selects the handler
pair and the raw-to-proxy registry used by `createReactiveObject`. -/
structure Variant where
  readonly : Bool
  shallow : Bool
deriving DecidableEq, Repr

/-- Runtime values, by identity: primitives, raw objects (with their
`toRawType` kind and `markRaw` skip flag), proxies (with target, variant and
their own identity), and `RefImpl` instances (by cell id). -/
inductive Val where
  | undef
  | num (n : Int)
  | nanV
  | obj (id : Nat) (kind : ObjKind) (skip : Bool)
  | proxyOf (target : Val) (variant : Variant) (pid : Nat)
  | refV (rid : Nat)
deriving DecidableEq, Repr

def isObjectV : Val → Bool
  | Val.obj _ _ _ => true
  | Val.proxyOf _ _ _ => true
  | Val.refV _ => true
  | _ => false

/-- Reading `__v_raw` on a value: only a proxy answers (with its target). -/
def rawFlag : Val → Option Val
  | Val.proxyOf t _ _ => some t
  | _ => none

/-- Reading `__v_isReactive` (answered by the proxy get trap). -/
def isReactiveFlag : Val → Bool
  | Val.proxyOf _ v _ => !v.readonly
  | _ => false

/-- Reading `__v_isReadonly` (answered by the proxy get trap). -/
def isReadonlyFlag : Val → Bool
  | Val.proxyOf _ v _ => v.readonly
  | _ => false

/-- Reading `__v_isShallow` (answered by the proxy get trap). -/
def isShallowFlag : Val → Bool
  | Val.proxyOf _ v _ => v.shallow
  | _ => false

/-- `isRef`: reads `__v_isRef`, which the proxy get trap forwards to the
underlying target, so a reactive proxy over a ref also counts as a ref. -/
def isRefV : Val → Bool
  | Val.refV _ => true
  | Val.proxyOf t _ _ => isRefV t
  | _ => false

/-- `toRaw`: follow `__v_raw` to the innermost non-proxy value. -/
def toRaw : Val → Val
  | Val.proxyOf t _ _ => toRaw t
  | v => v

inductive TargetTypeE where
  | invalid
  | common
  | collection
deriving DecidableEq, Repr

def targetTypeMap : ObjKind → TargetTypeE
  | ObjKind.objectK => TargetTypeE.common
  | ObjKind.arrayK => TargetTypeE.common
  | ObjKind.mapK => TargetTypeE.collection
  | ObjKind.setK => TargetTypeE.collection
  | ObjKind.weakMapK => TargetTypeE.collection
  | ObjKind.weakSetK => TargetTypeE.collection
  | ObjKind.otherK => TargetTypeE.invalid

/-- `getTargetType` (`__v_skip` or a non-listed `toRawType` make the value
invalid; `toRawType` and the skip read see through a proxy; a `RefImpl`
instance is a plain extensible object). -/
def getTargetType : Val → TargetTypeE
  | Val.obj _ kind skip => if skip then TargetTypeE.invalid else targetTypeMap kind
  | Val.proxyOf t _ _ => getTargetType t
  | Val.refV _ => TargetTypeE.common
  | _ => TargetTypeE.invalid

/-- The four `proxyMap` weak maps keyed by variant, plus a counter supplying
fresh proxy identities. -/
structure ReactiveRegistry where
  reg : Variant → List (Val × Val)
  next : Nat

/-- `proxyMap.get(target)`. -/
def lookupProxy (st : ReactiveRegistry) (variant : Variant) (target : Val) : Option Val :=
  ((st.reg variant).find? (fun e => decide (e.1 = target))).map (fun e => e.2)

/-- `createReactiveObject`: primitive passthrough, already-a-proxy passthrough
(except `readonly` on a reactive proxy), registry reuse, invalid-type
passthrough, else create and register a fresh proxy. -/
def createReactiveObject (st : ReactiveRegistry) (variant : Variant) (target : Val) :
    ReactiveRegistry × Val :=
  if !isObjectV target then (st, target)
  else if (rawFlag target).isSome && !(variant.readonly && isReactiveFlag target) then
    (st, target)
  else
    match lookupProxy st variant target with
    | some existing => (st, existing)
    | none =>
      if getTargetType target = TargetTypeE.invalid then (st, target)
      else
        let proxy := Val.proxyOf target variant st.next
        ({ reg := fun v2 => if v2 = variant then (target, proxy) :: st.reg v2 else st.reg v2,
           next := st.next + 1 }, proxy)

/-- `reactive`: returns readonly values unchanged, else the mutable deep
variant of `createReactiveObject`. -/
def reactive (st : ReactiveRegistry) (target : Val) : ReactiveRegistry × Val :=
  if isReadonlyFlag target then (st, target)
  else createReactiveObject st ⟨false, false⟩ target

/-- `toReactive`: wrap objects with `reactive`, pass primitives through. -/
def toReactive (st : ReactiveRegistry) (v : Val) : ReactiveRegistry × Val :=
  if isObjectV v then reactive st v else (st, v)

/-- Registry well-formedness: every stored entry maps a target to a proxy of
that same target under that same variant. -/
def RegWF (st : ReactiveRegistry) : Prop :=
  ∀ variant t p, (t, p) ∈ st.reg variant → ∃ pid, p = Val.proxyOf t variant pid

/-- The registry after `createReactiveObject` stores a fresh proxy for
`target` under `variant` (the `proxyMap.set(target, proxy)` step). -/
def registerProxy (st : ReactiveRegistry) (variant : Variant) (target : Val) :
    ReactiveRegistry :=
  { reg := fun v2 => if v2 = variant then
      (target, Val.proxyOf target variant st.next) :: st.reg v2 else st.reg v2,
    next := st.next + 1 }

/-! ## Section 7: `RefImpl.set value` (part_000) -/

/-- Modelled from the spec: `hasChanged` lives in the shared utilities package
(`@vue/shared`), which is not under `src/`.  The spec describes it as a
changed-predicate that "treats NaN as equal to itself and uses strict
inequality otherwise"; on `Val` the NaN special case is written out explicitly
(Lean equality on the embedded values is identity). -/
def hasChanged (value oldValue : Val) : Bool :=
  if value = Val.nanV && oldValue = Val.nanV then false else decide (value ≠ oldValue)

/-- The fields of one `RefImpl` cell that its setter touches. -/
structure RefImplState where
  rawValue : Val
  value : Val
  isShallowRef : Bool
deriving DecidableEq, Repr

/-- `RefImpl.set value`: unwrap the incoming value unless the ref is shallow
or the value is shallow/readonly, compare with `hasChanged` against the stored
raw value, and only on change store raw + re-wrapped values and trigger
(the returned Boolean records whether `triggerRefValue` ran). -/
def refSetValue (st : ReactiveRegistry) (r : RefImplState) (newVal : Val) :
    ReactiveRegistry × RefImplState × Bool :=
  let useDirectValue := r.isShallowRef || isShallowFlag newVal || isReadonlyFlag newVal
  let nv := if useDirectValue then newVal else toRaw newVal
  if hasChanged nv r.rawValue then
    let wrapped := if useDirectValue then (st, nv) else toReactive st nv
    (wrapped.1, { r with rawValue := nv, value := wrapped.2 }, true)
  else (st, r, false)

/-! ## Section 8: `MutableReactiveHandler.set` (baseHandlers.ts) -/

inductive TriggerKind where
  | addT
  | setT
deriving DecidableEq, Repr

/-- Shared mutable store: the wrapper registry, the ref cells, and raw
objects' own properties (`none` = the key is absent, so reads give
`undefined` and `hasOwn` is false). -/
structure Heap where
  registry : ReactiveRegistry
  refs : Nat → RefImplState
  objs : Nat → Nat → Option Val

/-- `MutableReactiveHandler.set` of the deep mutable handler
(`_shallow = false`) on raw target `tid` of kind `kind`.  Returns the new
heap, the trap's return value, and which trigger (if any) fired.  The model
keys properties by numbers and covers non-array targets (for arrays the
`hadKey` test would compare an integer key against the length; the claims
this file settles concern non-array targets).  The readonly-ref guard reads
the property value as stored, and after the `!isShallow(value) &&
!isReadonly(value)` unwrap both the ref-forwarding test and the
`hasChanged(value, oldValue)` SET-trigger test use the reassigned
(`toRaw`-unwrapped) `oldValue`, as in the source.  One reachable case is
left out of the modelled fragment and returns `none`: a ref answering
`isRef` through a wrapping proxy that survives the unwrap (possible only
when the incoming value is shallow or readonly, so `toRaw` is not applied);
there the source's `oldValue.value = value` re-enters that proxy's own set
trap, which this function does not recurse into. -/
def mutableSet (h : Heap) (tid : Nat) (kind : ObjKind) (key : Nat) (value0 : Val) :
    Option (Heap × Bool × Option TriggerKind) :=
  let oldValue0 := (h.objs tid key).getD Val.undef
  if isReadonlyFlag oldValue0 && isRefV oldValue0 && !isRefV value0 then some (h, false, none)
  else
    let deepen := !isShallowFlag value0 && !isReadonlyFlag value0
    let oldValue := if deepen then toRaw oldValue0 else oldValue0
    let value := if deepen then toRaw value0 else value0
    if !(decide (kind = ObjKind.arrayK)) && isRefV oldValue && !isRefV value then
      match oldValue with
      | Val.refV rid =>
        let res := refSetValue h.registry (h.refs rid) value
        some ({ h with registry := res.1, refs := fupd h.refs rid res.2.1 }, true, none)
      | _ => none
    else
      let hadKey := (h.objs tid key).isSome
      some ({ h with objs := fun i k => if i = tid && k = key then some value else h.objs i k },
       true,
       if !hadKey then some TriggerKind.addT
       else if hasChanged value oldValue then some TriggerKind.setT else none)

/-! ## Section 9: save/restore discipline of `ReactiveEffect.run` -/

/-- The tracking globals: `activeEffect`, `shouldTrack`, `effectTrackDepth`
and `trackOpBit`. -/
structure Globals where
  activeEffect : Option Nat
  shouldTrack : Bool
  effectTrackDepth : Nat
  trackOpBit : Nat
deriving DecidableEq, Repr

/-- The per-effect fields `run`/`stop` consult. -/
structure EffRec where
  active : Bool
  parent : Option Nat
  deferStop : Bool

/-- The `while (parent) { if (parent === this) ... }` self-recursion walk,
starting at `activeEffect`; the fuel bounds the walk (on the acyclic parent
chains the runtime builds, any fuel at least the chain length is exact). -/
def inParentChain (heap : Nat → EffRec) (e : Nat) : Option Nat → Nat → Bool
  | none, _ => false
  | some _, 0 => false
  | some p, fuel + 1 =>
    if p = e then true else inParentChain heap e (heap p).parent fuel

/-- `ReactiveEffect.run` as a transformer of the tracking globals.  The body
`fn` may mutate the globals arbitrarily and reports completion (`true`) or a
thrown exception (`false`), which the `finally` block of the source sees
identically; dep bookkeeping and the deferred stop touch only effect/dep
storage, not these globals, and `this.parent` is not reachable from the body,
so it is kept as the local `parentSaved`. -/
def effectRun (heap : Nat → EffRec) (e : Nat) (fn : Globals → Globals × Bool)
    (fuel : Nat) (g : Globals) : Globals × Bool :=
  if !(heap e).active then fn g
  else if inParentChain heap e g.activeEffect fuel then (g, true)
  else
    let parentSaved := g.activeEffect
    let g1 : Globals :=
      { activeEffect := some e, shouldTrack := true,
        effectTrackDepth := g.effectTrackDepth + 1,
        trackOpBit := 1 <<< (g.effectTrackDepth + 1) }
    let res := fn g1
    let g3 : Globals :=
      { activeEffect := parentSaved, shouldTrack := g.shouldTrack,
        effectTrackDepth := res.1.effectTrackDepth - 1,
        trackOpBit := 1 <<< (res.1.effectTrackDepth - 1) }
    (g3, res.2)

/-! ## Proof layer -/

/-! ### List index helpers -/

theorem fupd_self {α : Type} (p : Nat → α) (i : Nat) (v : α) : fupd p i v i = v := by
  simp [fupd]

theorem fupd_ne {α : Type} (p : Nat → α) (i : Nat) (v : α) (k : Nat) (h : k ≠ i) :
    fupd p i v k = p k := by
  simp [fupd, h]

theorem getD_append_lt (l l2 : List Nat) (k : Nat) (h : k < l.length) :
    (l ++ l2).getD k 0 = l.getD k 0 :=
  List.getD_append l l2 0 k h

theorem getD_concat_len (l : List Nat) (a : Nat) : (l ++ [a]).getD l.length 0 = a := by
  simp [List.getD_eq_getElem?_getD]

theorem getD_set_self (l : List Nat) (u a : Nat) (h : u < l.length) :
    (l.set u a).getD u 0 = a := by
  simp [List.getD_eq_getElem?_getD, List.getElem?_set, h]

theorem getD_set_ne (l : List Nat) (u a k : Nat) (h : u ≠ k) :
    (l.set u a).getD k 0 = l.getD k 0 := by
  simp [List.getD_eq_getElem?_getD, List.getElem?_set, h]

theorem getD_mem_of_lt (l : List Nat) (k : Nat) (h : k < l.length) : l.getD k 0 ∈ l := by
  rw [List.getD_eq_getElem l 0 h]
  exact List.getElem_mem h

theorem pairwise_getD {R : Nat → Nat → Prop} {l : List Nat} (hp : l.Pairwise R)
    (k m : Nat) (hkm : k < m) (hm : m < l.length) : R (l.getD k 0) (l.getD m 0) := by
  have hk : k < l.length := lt_trans hkm hm
  rw [List.getD_eq_getElem l 0 hk, List.getD_eq_getElem l 0 hm]
  exact List.pairwise_iff_getElem.mp hp k m hk hm hkm

/-- A sorted list whose elements are all `< t + 1` and which contains `t`
ends in `t`, with everything before it `< t`. -/
theorem sorted_split_max (s : List Nat) (t : Nat) (hs : s.Pairwise (· < ·))
    (hlt : ∀ x ∈ s, x < t + 1) (ht : t ∈ s) :
    ∃ s1, s = s1 ++ [t] ∧ ∀ x ∈ s1, x < t := by
  obtain ⟨s1, s2, rfl⟩ := List.append_of_mem ht
  rw [List.pairwise_append] at hs
  obtain ⟨hs1, hs2, hcross⟩ := hs
  have hs2nil : s2 = [] := by
    cases s2 with
    | nil => rfl
    | cons b bs =>
      have hb : t < b := (List.pairwise_cons.mp hs2).1 b (by simp)
      have hb2 : b < t + 1 := hlt b (by simp)
      omega
  subst hs2nil
  exact ⟨s1, rfl, fun x hx => by
    have := hcross x hx t (by simp)
    omega⟩

/-! ### Binary-search loop correctness -/

theorem lisSearchAux_spec (arr result : List Nat) (x : Nat)
    (mono : ∀ k l, k < l → l < result.length →
      arr.getD (result.getD k 0) 0 < arr.getD (result.getD l 0) 0) :
    ∀ fuel u v, u ≤ v → v < result.length → v - u ≤ fuel →
      (∀ k < u, arr.getD (result.getD k 0) 0 < x) →
      x ≤ arr.getD (result.getD v 0) 0 →
      u ≤ lisSearchAux arr result x fuel u v ∧
        lisSearchAux arr result x fuel u v ≤ v ∧
        (∀ k < lisSearchAux arr result x fuel u v, arr.getD (result.getD k 0) 0 < x) ∧
        x ≤ arr.getD (result.getD (lisSearchAux arr result x fuel u v) 0) 0 := by
  intro fuel
  induction fuel with
  | zero =>
    intro u v huv hv hfuel hlo hhi
    have : u = v := by omega
    subst this
    exact ⟨le_refl u, le_refl u, hlo, by simpa [lisSearchAux] using hhi⟩
  | succ fuel ih =>
    intro u v huv hv hfuel hlo hhi
    by_cases huv2 : u < v
    · have hc1 : u ≤ (u + v) / 2 := by omega
      have hc2 : (u + v) / 2 < v := by omega
      have heq0 : lisSearchAux arr result x (fuel + 1) u v =
          if arr.getD (result.getD ((u + v) / 2) 0) 0 < x then
            lisSearchAux arr result x fuel ((u + v) / 2 + 1) v
          else lisSearchAux arr result x fuel u ((u + v) / 2) := by
        simp only [lisSearchAux, if_pos huv2]
      by_cases hmid : arr.getD (result.getD ((u + v) / 2) 0) 0 < x
      · have hstep := ih ((u + v) / 2 + 1) v (by omega) hv (by omega)
          (fun k hk => by
            rcases Nat.lt_or_ge k u with hk2 | hk2
            · exact hlo k hk2
            · rcases Nat.lt_or_ge k ((u + v) / 2) with hk3 | hk3
              · exact lt_trans (mono k ((u + v) / 2) hk3 (lt_trans hc2 hv)) hmid
              · have : k = (u + v) / 2 := by omega
                subst this
                exact hmid)
          hhi
        rw [heq0, if_pos hmid]
        exact ⟨by omega, hstep.2.1, hstep.2.2.1, hstep.2.2.2⟩
      · have hstep := ih u ((u + v) / 2) hc1 (by omega) (by omega) hlo (le_of_not_lt hmid)
        rw [heq0, if_neg hmid]
        exact ⟨hstep.1, by omega, hstep.2.2.1, hstep.2.2.2⟩
    · have : u = v := by omega
      subst this
      have heq : lisSearchAux arr result x (fuel + 1) u u = u := by
        simp [lisSearchAux]
      rw [heq]
      exact ⟨le_refl u, le_refl u, hlo, hhi⟩

/-! ### Chain helpers -/

theorem lisChain_length (p : Nat → Nat) : ∀ n v, (lisChain p v n).length = n := by
  intro n
  induction n with
  | zero => intro v; rfl
  | succ n ih => intro v; simp [lisChain, ih]

theorem lisChain_fupd (p : Nat → Nat) (i j : Nat) :
    ∀ n v, (∀ x ∈ lisChain p v n, x ≠ i) →
      lisChain (fupd p i j) v n = lisChain p v n := by
  intro n
  induction n with
  | zero => intro v _; rfl
  | succ n ih =>
    intro v h
    have hv : v ≠ i := h v (by simp [lisChain])
    have hpv : fupd p i j v = p v := fupd_ne p i j v hv
    simp only [lisChain, hpv]
    congr 1
    exact ih (p v) (fun x hx => h x (by simp [lisChain, hx]))

theorem chainDec_mono (arr : List Nat) (t : Nat) (c : List Nat) (h : ChainDec arr t c) :
    ChainDec arr (t + 1) c :=
  ⟨h.1, fun i hi => ⟨by have := (h.2.1 i hi).1; omega, (h.2.1 i hi).2⟩, h.2.2⟩

theorem chainDec_lt (arr : List Nat) (t : Nat) (c : List Nat) (h : ChainDec arr t c) :
    ∀ x ∈ c, x ≠ t := by
  intro x hx
  have := (h.2.1 x hx).1
  omega

/-- Prepending a fresh index `t` with a strictly larger non-zero value to a
chain headed by `jv` keeps the chain properties. -/
theorem chainDec_extend (arr : List Nat) (t m : Nat) (p : Nat → Nat) (jv : Nat)
    (hc : ChainDec arr t (lisChain p jv (m + 1)))
    (hx : arr.getD t 0 ≠ 0)
    (hjv : arr.getD jv 0 < arr.getD t 0) :
    ChainDec arr (t + 1) (t :: lisChain p jv (m + 1)) := by
  have hshape : lisChain p jv (m + 1) = jv :: lisChain p (p jv) m := rfl
  refine ⟨?_, ?_, ?_⟩
  · rw [List.pairwise_cons]
    exact ⟨fun y hy => (hc.2.1 y hy).1, hc.1⟩
  · intro i hi
    rcases List.mem_cons.mp hi with rfl | hi2
    · exact ⟨by omega, hx⟩
    · have := hc.2.1 i hi2
      exact ⟨by omega, this.2⟩
  · rw [List.pairwise_cons]
    refine ⟨?_, hc.2.2⟩
    intro y hy
    rw [hshape] at hy
    rcases List.mem_cons.mp hy with rfl | hy2
    · exact hjv
    · have hvals := hc.2.2
      rw [hshape, List.pairwise_cons] at hvals
      exact lt_trans (hvals.1 y hy2) hjv

theorem chainDec_reverse (arr : List Nat) (t : Nat) (c : List Nat) (h : ChainDec arr t c) :
    NZIncr arr t c.reverse := by
  refine ⟨?_, ?_, ?_⟩
  · rw [List.pairwise_reverse]
    exact h.1
  · intro i hi
    exact h.2.1 i (List.mem_reverse.mp hi)
  · rw [List.pairwise_reverse]
    exact h.2.2

/-! ### NZIncr helpers -/

theorem nzincr_mono_out (arr : List Nat) (t : Nat) (s : List Nat)
    (h : NZIncr arr (t + 1) s) (hnt : t ∉ s) : NZIncr arr t s := by
  refine ⟨h.1, ?_, h.2.2⟩
  intro i hi
  have h2 := h.2.1 i hi
  have : i ≠ t := fun he => hnt (he ▸ hi)
  exact ⟨by omega, h2.2⟩

theorem nzincr_split (arr : List Nat) (t : Nat) (s : List Nat)
    (h : NZIncr arr (t + 1) s) (ht : t ∈ s) :
    ∃ s1, s = s1 ++ [t] ∧ NZIncr arr t s1 ∧
      ∀ i ∈ s1, arr.getD i 0 < arr.getD t 0 := by
  obtain ⟨s1, hs1, hs1lt⟩ := sorted_split_max s t h.1 (fun x hx => (h.2.1 x hx).1) ht
  refine ⟨s1, hs1, ⟨?_, ?_, ?_⟩, ?_⟩
  · have := h.1
    rw [hs1, List.pairwise_append] at this
    exact this.1
  · intro i hi
    exact ⟨hs1lt i hi, (h.2.1 i (by rw [hs1]; exact List.mem_append_left _ hi)).2⟩
  · have := h.2.2
    rw [hs1, List.pairwise_append] at this
    exact this.1
  · have := h.2.2
    rw [hs1, List.pairwise_append] at this
    exact fun i hi => this.2.2 i hi t (by simp)

theorem nzincr_one (arr : List Nat) (s : List Nat) (h : NZIncr arr 1 s) :
    s = [] ∨ s = [0] := by
  cases s with
  | nil => exact Or.inl rfl
  | cons a rest =>
    have ha : a = 0 := by
      have := (h.2.1 a (by simp)).1
      omega
    cases rest with
    | nil => exact Or.inr (by rw [ha])
    | cons b bs =>
      have hb : b = 0 := by
        have := (h.2.1 b (by simp)).1
        omega
      have hab : a < b := (List.pairwise_cons.mp h.1).1 b (by simp)
      omega

/-! ### The `getSequence` loop invariant -/

theorem lisInv_tails_le (arr : List Nat) (t : Nat) (p : Nat → Nat) (result : List Nat)
    (inv : LisInv arr t p result) (k l : Nat) (hkl : k ≤ l) (hl : l < result.length) :
    arr.getD (result.getD k 0) 0 ≤ arr.getD (result.getD l 0) 0 := by
  rcases Nat.lt_or_ge k l with h | h
  · exact le_of_lt (inv.tails k l h hl)
  · have : k = l := by omega
    subst this
    exact le_refl _

theorem lisInv_succ_zero (arr : List Nat) (t : Nat) (p : Nat → Nat) (result : List Nat)
    (hx : arr.getD t 0 = 0) (inv : LisInv arr t p result) :
    LisInv arr (t + 1) p result := by
  refine ⟨inv.ne, ?_, inv.tails, ?_, ?_⟩
  · intro k hk
    have := inv.mem k hk
    exact ⟨by omega, this.2⟩
  · intro k hk
    exact chainDec_mono arr t _ (inv.chains k hk)
  · intro s hs
    have hts : t ∉ s := fun hmem => (hs.2.1 t hmem).2 hx
    exact inv.bound s (nzincr_mono_out arr t s hs hts)

theorem lisInv_push (arr : List Nat) (t : Nat) (p : Nat → Nat) (result : List Nat)
    (hx : arr.getD t 0 ≠ 0)
    (hj : arr.getD (result.getD (result.length - 1) 0) 0 < arr.getD t 0)
    (inv : LisInv arr t p result) :
    LisInv arr (t + 1) (fupd p t (result.getD (result.length - 1) 0)) (result ++ [t]) := by
  have hlen : 0 < result.length := List.length_pos.mpr inv.ne
  have hlen2 : (result ++ [t]).length = result.length + 1 := by simp
  have hgetlt : ∀ k, k < result.length → (result ++ [t]).getD k 0 = result.getD k 0 :=
    fun k hk => getD_append_lt result [t] k hk
  have hgetlen : (result ++ [t]).getD result.length 0 = t := getD_concat_len result t
  refine ⟨by simp, ?_, ?_, ?_, ?_⟩
  · intro k hk
    rw [hlen2] at hk
    rcases Nat.lt_or_ge k result.length with hk2 | hk2
    · rw [hgetlt k hk2]
      have := inv.mem k hk2
      exact ⟨by omega, this.2⟩
    · have hkeq : k = result.length := by omega
      subst hkeq
      rw [hgetlen]
      exact ⟨by omega, hx⟩
  · intro k l hkl hl
    rw [hlen2] at hl
    rcases Nat.lt_or_ge l result.length with hl2 | hl2
    · rw [hgetlt k (lt_trans hkl hl2), hgetlt l hl2]
      exact inv.tails k l hkl hl2
    · have hleq : l = result.length := by omega
      subst hleq
      rw [hgetlt k hkl, hgetlen]
      calc arr.getD (result.getD k 0) 0
          ≤ arr.getD (result.getD (result.length - 1) 0) 0 :=
            lisInv_tails_le arr t p result inv k (result.length - 1) (by omega) (by omega)
        _ < arr.getD t 0 := hj
  · intro k hk
    rw [hlen2] at hk
    rcases Nat.lt_or_ge k result.length with hk2 | hk2
    · rw [hgetlt k hk2]
      have hc := inv.chains k hk2
      have hne : ∀ x ∈ lisChain p (result.getD k 0) (k + 1), x ≠ t :=
        chainDec_lt arr t _ hc
      rw [lisChain_fupd p t (result.getD (result.length - 1) 0) (k + 1) (result.getD k 0) hne]
      exact chainDec_mono arr t _ hc
    · have hkeq : k = result.length := by omega
      subst hkeq
      rw [hgetlen]
      have hc := inv.chains (result.length - 1) (by omega)
      rw [Nat.sub_add_cancel hlen] at hc
      have hne : ∀ x ∈ lisChain p (result.getD (result.length - 1) 0) result.length, x ≠ t :=
        chainDec_lt arr t _ hc
      have hshape :
          lisChain (fupd p t (result.getD (result.length - 1) 0)) t (result.length + 1) =
            t :: lisChain (fupd p t (result.getD (result.length - 1) 0))
              (result.getD (result.length - 1) 0) result.length := by
        simp [lisChain, fupd_self]
      rw [hshape,
        lisChain_fupd p t (result.getD (result.length - 1) 0) result.length _ hne]
      have hext := chainDec_extend arr t (result.length - 1) p
        (result.getD (result.length - 1) 0) (by rwa [Nat.sub_add_cancel hlen]) hx hj
      rwa [Nat.sub_add_cancel hlen] at hext
  · intro s hs
    rw [hlen2]
    by_cases hts : t ∈ s
    · obtain ⟨s1, hseq, hnz1, hjun⟩ := nzincr_split arr t s hs hts
      subst hseq
      have hslen : (s1 ++ [t]).length = s1.length + 1 := by simp
      by_cases hs1 : s1 = []
      · subst hs1
        refine ⟨by simp, ?_⟩
        intro _
        simp only [List.nil_append, hslen]
        rw [show ([t] : List Nat).length - 1 = 0 from rfl]
        rw [hgetlt 0 hlen]
        rw [show ([t] : List Nat).getD 0 0 = t from rfl]
        calc arr.getD (result.getD 0 0) 0
            ≤ arr.getD (result.getD (result.length - 1) 0) 0 :=
              lisInv_tails_le arr t p result inv 0 (result.length - 1) (by omega) (by omega)
          _ ≤ arr.getD t 0 := le_of_lt hj
      · have hm1 : 0 < s1.length := List.length_pos.mpr hs1
        obtain ⟨hb1, hb2⟩ := inv.bound s1 hnz1
        refine ⟨by rw [hslen]; omega, ?_⟩
        intro _
        rw [hslen]
        have hidx : s1.length + 1 - 1 = s1.length := by omega
        rw [hidx, getD_concat_len s1 t]
        rcases Nat.lt_or_ge s1.length result.length with hlt | hge
        · rw [hgetlt s1.length hlt]
          calc arr.getD (result.getD s1.length 0) 0
              ≤ arr.getD (result.getD (result.length - 1) 0) 0 :=
                lisInv_tails_le arr t p result inv s1.length (result.length - 1)
                  (by omega) (by omega)
            _ ≤ arr.getD t 0 := le_of_lt hj
        · have hseq2 : s1.length = result.length := by omega
          rw [hseq2, hgetlen]
    · have hs' := nzincr_mono_out arr t s hs hts
      obtain ⟨hb1, hb2⟩ := inv.bound s hs'
      refine ⟨by omega, ?_⟩
      intro hs1
      have hidx : s.length - 1 < result.length := by omega
      rw [hgetlt (s.length - 1) hidx]
      exact hb2 hs1

theorem lisInv_same (arr : List Nat) (t : Nat) (p : Nat → Nat) (result : List Nat) (u : Nat)
    (hx : arr.getD t 0 ≠ 0)
    (hu : u < result.length)
    (hbelow : ∀ k < u, arr.getD (result.getD k 0) 0 < arr.getD t 0)
    (hueq : arr.getD (result.getD u 0) 0 = arr.getD t 0)
    (inv : LisInv arr t p result) :
    LisInv arr (t + 1) p result := by
  have hlen : 0 < result.length := List.length_pos.mpr inv.ne
  refine ⟨inv.ne, ?_, inv.tails, ?_, ?_⟩
  · intro k hk
    have := inv.mem k hk
    exact ⟨by omega, this.2⟩
  · intro k hk
    exact chainDec_mono arr t _ (inv.chains k hk)
  · intro s hs
    by_cases hts : t ∈ s
    · obtain ⟨s1, hseq, hnz1, hjun⟩ := nzincr_split arr t s hs hts
      subst hseq
      have hslen : (s1 ++ [t]).length = s1.length + 1 := by simp
      by_cases hs1 : s1 = []
      · subst hs1
        refine ⟨by simp; omega, ?_⟩
        intro _
        simp only [List.nil_append, hslen]
        rw [show ([t] : List Nat).length - 1 = 0 from rfl]
        rw [show ([t] : List Nat).getD 0 0 = t from rfl]
        rcases Nat.eq_zero_or_pos u with hu0 | hu0
        · have hz : result.getD 0 0 = result.getD u 0 := by rw [hu0]
          rw [hz]
          exact le_of_eq hueq
        · exact le_of_lt (hbelow 0 hu0)
      · have hm1 : 0 < s1.length := List.length_pos.mpr hs1
        obtain ⟨hb1, hb2⟩ := inv.bound s1 hnz1
        have hb2' := hb2 hm1
        -- the last value of s1 is below arr[t], so position s1.length - 1 is below u
        have hlast : arr.getD (s1.getD (s1.length - 1) 0) 0 < arr.getD t 0 :=
          hjun (s1.getD (s1.length - 1) 0) (getD_mem_of_lt s1 (s1.length - 1) (by omega))
        have hmu : s1.length - 1 < u := by
          by_contra hcon
          push_neg at hcon
          have h1 : arr.getD (result.getD u 0) 0 ≤ arr.getD (result.getD (s1.length - 1) 0) 0 :=
            lisInv_tails_le arr t p result inv u (s1.length - 1) hcon (by omega)
          have h2 : arr.getD (result.getD (s1.length - 1) 0) 0 < arr.getD t 0 :=
            lt_of_le_of_lt hb2' hlast
          omega
        refine ⟨by rw [hslen]; omega, ?_⟩
        intro _
        rw [hslen]
        have hidx : s1.length + 1 - 1 = s1.length := by omega
        rw [hidx, getD_concat_len s1 t]
        rcases Nat.lt_or_ge s1.length u with hltu | hgeu
        · exact le_of_lt (hbelow s1.length hltu)
        · have : s1.length = u := by omega
          rw [this]
          exact le_of_eq hueq
    · exact inv.bound s (nzincr_mono_out arr t s hs hts)

theorem lisInv_replace (arr : List Nat) (t : Nat) (p : Nat → Nat) (result : List Nat)
    (u : Nat)
    (hx : arr.getD t 0 ≠ 0)
    (hu : u < result.length)
    (hbelow : ∀ k < u, arr.getD (result.getD k 0) 0 < arr.getD t 0)
    (hrep : arr.getD t 0 < arr.getD (result.getD u 0) 0)
    (inv : LisInv arr t p result) :
    LisInv arr (t + 1) (if 0 < u then fupd p t (result.getD (u - 1) 0) else p)
      (result.set u t) := by
  have hlen : 0 < result.length := List.length_pos.mpr inv.ne
  have hlen2 : (result.set u t).length = result.length := List.length_set result u t
  have hgetu : (result.set u t).getD u 0 = t := getD_set_self result u t hu
  have hgetne : ∀ k, k ≠ u → (result.set u t).getD k 0 = result.getD k 0 :=
    fun k hk => getD_set_ne result u t k (fun he => hk he.symm)
  have hne2 : result.set u t ≠ [] := by
    rw [← List.length_pos, hlen2]
    exact hlen
  refine ⟨hne2, ?_, ?_, ?_, ?_⟩
  · intro k hk
    rw [hlen2] at hk
    by_cases hku : k = u
    · subst hku
      rw [hgetu]
      exact ⟨by omega, hx⟩
    · rw [hgetne k hku]
      have := inv.mem k hk
      exact ⟨by omega, this.2⟩
  · intro k l hkl hl
    rw [hlen2] at hl
    by_cases hlu : l = u
    · have hku : k ≠ u := by omega
      rw [hlu, hgetu, hgetne k hku]
      exact hbelow k (by omega)
    · by_cases hku : k = u
      · rw [hku, hgetu, hgetne l hlu]
        exact lt_trans hrep (inv.tails u l (by omega) hl)
      · rw [hgetne k hku, hgetne l hlu]
        exact inv.tails k l hkl hl
  · intro k hk
    rw [hlen2] at hk
    by_cases hku : k = u
    · subst hku
      rw [hgetu]
      rcases Nat.eq_zero_or_pos k with hk0 | hk0
      · subst hk0
        rw [if_neg (lt_irrefl 0)]
        refine ⟨?_, ?_, ?_⟩
        · simp [lisChain]
        · intro i hi
          simp only [lisChain] at hi
          rcases List.mem_cons.mp hi with rfl | hfalse
          · exact ⟨by omega, hx⟩
          · simp [lisChain] at hfalse
        · simp [lisChain]
      · rw [if_pos hk0]
        have hc := inv.chains (k - 1) (by omega)
        rw [Nat.sub_add_cancel hk0] at hc
        have hnet : ∀ x ∈ lisChain p (result.getD (k - 1) 0) k, x ≠ t :=
          chainDec_lt arr t _ hc
        have hshape :
            lisChain (fupd p t (result.getD (k - 1) 0)) t (k + 1) =
              t :: lisChain (fupd p t (result.getD (k - 1) 0))
                (result.getD (k - 1) 0) k := by
          simp [lisChain, fupd_self]
        rw [hshape, lisChain_fupd p t (result.getD (k - 1) 0) k _ hnet]
        have hjv : arr.getD (result.getD (k - 1) 0) 0 < arr.getD t 0 :=
          hbelow (k - 1) (by omega)
        have hext := chainDec_extend arr t (k - 1) p (result.getD (k - 1) 0)
          (by rwa [Nat.sub_add_cancel hk0]) hx hjv
        rwa [Nat.sub_add_cancel hk0] at hext
    · rw [hgetne k hku]
      have hc := inv.chains k hk
      have hnet : ∀ x ∈ lisChain p (result.getD k 0) (k + 1), x ≠ t :=
        chainDec_lt arr t _ hc
      rcases Nat.eq_zero_or_pos u with hu0 | hu0
      · rw [if_neg (by omega)]
        exact chainDec_mono arr t _ hc
      · rw [if_pos hu0, lisChain_fupd p t (result.getD (u - 1) 0) (k + 1) _ hnet]
        exact chainDec_mono arr t _ hc
  · intro s hs
    rw [hlen2]
    by_cases hts : t ∈ s
    · obtain ⟨s1, hseq, hnz1, hjun⟩ := nzincr_split arr t s hs hts
      subst hseq
      have hslen : (s1 ++ [t]).length = s1.length + 1 := by simp
      by_cases hs1 : s1 = []
      · subst hs1
        refine ⟨by simp; omega, ?_⟩
        intro _
        simp only [List.nil_append, hslen]
        rw [show ([t] : List Nat).length - 1 = 0 from rfl]
        rw [show ([t] : List Nat).getD 0 0 = t from rfl]
        rcases Nat.eq_zero_or_pos u with hu0 | hu0
        · subst hu0
          rw [hgetu]
        · rw [hgetne 0 (by omega)]
          exact le_of_lt (hbelow 0 hu0)
      · have hm1 : 0 < s1.length := List.length_pos.mpr hs1
        obtain ⟨hb1, hb2⟩ := inv.bound s1 hnz1
        have hb2' := hb2 hm1
        have hlast : arr.getD (s1.getD (s1.length - 1) 0) 0 < arr.getD t 0 :=
          hjun (s1.getD (s1.length - 1) 0) (getD_mem_of_lt s1 (s1.length - 1) (by omega))
        have hmu : s1.length - 1 < u := by
          by_contra hcon
          push_neg at hcon
          have h1 : arr.getD (result.getD u 0) 0 ≤ arr.getD (result.getD (s1.length - 1) 0) 0 :=
            lisInv_tails_le arr t p result inv u (s1.length - 1) hcon (by omega)
          have h2 : arr.getD (result.getD (s1.length - 1) 0) 0 < arr.getD t 0 :=
            lt_of_le_of_lt hb2' hlast
          omega
        refine ⟨by rw [hslen]; omega, ?_⟩
        intro _
        rw [hslen]
        have hidx : s1.length + 1 - 1 = s1.length := by omega
        rw [hidx, getD_concat_len s1 t]
        rcases Nat.lt_or_ge s1.length u with hltu | hgeu
        · rw [hgetne s1.length (by omega)]
          exact le_of_lt (hbelow s1.length hltu)
        · have : s1.length = u := by omega
          rw [this, hgetu]
    · have hs' := nzincr_mono_out arr t s hs hts
      obtain ⟨hb1, hb2⟩ := inv.bound s hs'
      refine ⟨by omega, ?_⟩
      intro hs1
      have hb2' := hb2 hs1
      by_cases hiu : s.length - 1 = u
      · have hL : (result.set u t).getD (s.length - 1) 0 = t := by
          rw [hiu]
          exact hgetu
        rw [hL]
        have h3 : arr.getD t 0 < arr.getD (result.getD (s.length - 1) 0) 0 := by
          rw [hiu]
          exact hrep
        exact le_of_lt (lt_of_lt_of_le h3 hb2')
      · rw [hgetne (s.length - 1) hiu]
        exact hb2'

theorem lisStep_inv (arr : List Nat) (t : Nat) (p : Nat → Nat) (result : List Nat)
    (inv : LisInv arr t p result) :
    LisInv arr (t + 1) (lisStep arr (p, result) t).1 (lisStep arr (p, result) t).2 := by
  have hlen : 0 < result.length := List.length_pos.mpr inv.ne
  by_cases hx0 : arr.getD t 0 = 0
  · have heq : lisStep arr (p, result) t = (p, result) := by
      simp only [lisStep, if_neg (not_not_intro hx0)]
    rw [heq]
    exact lisInv_succ_zero arr t p result hx0 inv
  · have hx : arr.getD t 0 ≠ 0 := hx0
    by_cases hj : arr.getD (result.getD (result.length - 1) 0) 0 < arr.getD t 0
    · have heq : lisStep arr (p, result) t =
          (fupd p t (result.getD (result.length - 1) 0), result ++ [t]) := by
        simp only [lisStep, if_pos hx, if_pos hj]
      rw [heq]
      exact lisInv_push arr t p result hx hj inv
    · have hspec := lisSearchAux_spec arr result (arr.getD t 0) inv.tails
        (result.length - 1) 0 (result.length - 1) (by omega) (by omega) (by omega)
        (by intro k hk; omega)
        (le_of_not_lt hj)
      obtain ⟨hw1, hw2, hw3, hw4⟩ := hspec
      have hwlt : lisSearchAux arr result (arr.getD t 0) (result.length - 1) 0
          (result.length - 1) < result.length := by omega
      by_cases hrep : arr.getD t 0 <
          arr.getD (result.getD (lisSearch arr result (arr.getD t 0) 0 (result.length - 1)) 0) 0
      · have heq : lisStep arr (p, result) t =
            (if 0 < lisSearch arr result (arr.getD t 0) 0 (result.length - 1) then
                fupd p t (result.getD
                  (lisSearch arr result (arr.getD t 0) 0 (result.length - 1) - 1) 0)
              else p,
             result.set (lisSearch arr result (arr.getD t 0) 0 (result.length - 1)) t) := by
          simp only [lisStep, if_pos hx, if_neg hj, if_pos hrep]
        rw [heq]
        exact lisInv_replace arr t p result
          (lisSearch arr result (arr.getD t 0) 0 (result.length - 1)) hx hwlt hw3 hrep inv
      · have heq : lisStep arr (p, result) t = (p, result) := by
          simp only [lisStep, if_pos hx, if_neg hj, if_neg hrep]
        rw [heq]
        have hueq : arr.getD
            (result.getD (lisSearch arr result (arr.getD t 0) 0 (result.length - 1)) 0) 0 =
            arr.getD t 0 :=
          le_antisymm (le_of_not_lt hrep) hw4
        exact lisInv_same arr t p result
          (lisSearch arr result (arr.getD t 0) 0 (result.length - 1)) hx hwlt hw3 hueq inv

theorem lisStep_base (arr : List Nat) (h2 : arr.getD 0 0 ≠ 0) :
    lisStep arr ((fun k => arr.getD k 0), [0]) 0 = ((fun k => arr.getD k 0), [0]) := by
  simp [lisStep, lisSearch, lisSearchAux]

theorem lisInv_base (arr : List Nat) (h2 : arr.getD 0 0 ≠ 0) :
    LisInv arr 1 (fun k => arr.getD k 0) [0] := by
  have hlen : ([0] : List Nat).length = 1 := rfl
  have hget : ([0] : List Nat).getD 0 0 = 0 := rfl
  refine ⟨by simp, ?_, ?_, ?_, ?_⟩
  · intro k hk
    rw [hlen] at hk
    have hk0 : k = 0 := by omega
    subst hk0
    rw [hget]
    exact ⟨by omega, h2⟩
  · intro k l hkl hl
    rw [hlen] at hl
    omega
  · intro k hk
    rw [hlen] at hk
    have hk0 : k = 0 := by omega
    subst hk0
    rw [hget]
    refine ⟨?_, ?_, ?_⟩
    · simp [lisChain]
    · intro i hi
      simp only [lisChain] at hi
      rcases List.mem_cons.mp hi with rfl | hfalse
      · exact ⟨by omega, h2⟩
      · simp at hfalse
    · simp [lisChain]
  · intro s hs
    rcases nzincr_one arr s hs with rfl | rfl
    · exact ⟨by simp, by intro h; simp at h⟩
    · refine ⟨by simp, ?_⟩
      intro _
      simp [hget]

theorem lisFold_inv (arr : List Nat) (h1 : arr ≠ []) (h2 : arr.getD 0 0 ≠ 0) :
    ∀ t, 1 ≤ t → t ≤ arr.length →
      LisInv arr t
        ((List.range t).foldl (lisStep arr) ((fun k => arr.getD k 0), [0])).1
        ((List.range t).foldl (lisStep arr) ((fun k => arr.getD k 0), [0])).2 := by
  intro t
  induction t with
  | zero => intro h; omega
  | succ t ih =>
    intro _ hle
    rcases Nat.eq_zero_or_pos t with rfl | ht
    · have : List.range 1 = [0] := rfl
      rw [this]
      simp only [List.foldl_cons, List.foldl_nil]
      rw [lisStep_base arr h2]
      exact lisInv_base arr h2
    · have hinv := ih (by omega) (by omega)
      rw [List.range_succ, List.foldl_append]
      simp only [List.foldl_cons, List.foldl_nil]
      have := lisStep_inv arr t
        ((List.range t).foldl (lisStep arr) ((fun k => arr.getD k 0), [0])).1
        ((List.range t).foldl (lisStep arr) ((fun k => arr.getD k 0), [0])).2 hinv
      simpa using this

/-- Full functional specification of `getSequence` on arrays whose first
entry is non-zero: the result is a strictly increasing index list selecting a
strictly increasing sequence of non-zero values, of maximal length among all
such selections. -/
theorem getSequence_spec (arr : List Nat) (h1 : arr ≠ []) (h2 : arr.getD 0 0 ≠ 0) :
    NZIncr arr arr.length (getSequence arr) ∧
      ∀ s, NZIncr arr arr.length s → s.length ≤ (getSequence arr).length := by
  have hlenarr : 0 < arr.length := List.length_pos.mpr h1
  have hinv := lisFold_inv arr h1 h2 arr.length hlenarr (le_refl _)
  have hloop : lisLoop arr = (List.range arr.length).foldl (lisStep arr)
      ((fun k => arr.getD k 0), [0]) := rfl
  rw [← hloop] at hinv
  have hlen : 0 < (lisLoop arr).2.length := List.length_pos.mpr hinv.ne
  have hc := hinv.chains ((lisLoop arr).2.length - 1) (by omega)
  rw [Nat.sub_add_cancel hlen] at hc
  constructor
  · show NZIncr arr arr.length
      (lisChain (lisLoop arr).1
        ((lisLoop arr).2.getD ((lisLoop arr).2.length - 1) 0) (lisLoop arr).2.length).reverse
    exact chainDec_reverse arr arr.length _ hc
  · intro s hs
    have hb := (hinv.bound s hs).1
    show s.length ≤ (lisChain (lisLoop arr).1
        ((lisLoop arr).2.getD ((lisLoop arr).2.length - 1) 0) (lisLoop arr).2.length).reverse.length
    rw [List.length_reverse, lisChain_length]
    exact hb

/-! ### The step-5.3 move/mount loop -/

theorem moveLoopAux_spec (map seq : List Nat)
    (hsort : seq.Pairwise (· < ·))
    (hmem : ∀ x ∈ seq, map.getD x 0 ≠ 0) :
    ∀ i s1 s2, seq = s1 ++ s2 → (∀ x ∈ s1, x < i) → (∀ x ∈ s2, i ≤ x) →
      moveLoopAux map seq i ((s1.length : Int) - 1) =
        (List.range i).reverse.map (fun k => (k, diffActionAt map seq k)) := by
  intro i
  induction i with
  | zero =>
    intro s1 s2 _ _ _
    rfl
  | succ i ih =>
    intro s1 s2 hseq h1 h2
    have hrange : (List.range (i + 1)).reverse.map (fun k => (k, diffActionAt map seq k)) =
        (i, diffActionAt map seq i) ::
          (List.range i).reverse.map (fun k => (k, diffActionAt map seq k)) := by
      rw [List.range_succ, List.reverse_append]
      simp
    rw [hrange]
    by_cases hm : map.getD i 0 = 0
    · have hnot : i ∉ seq := fun hin => hmem i hin hm
      have heq : moveLoopAux map seq (i + 1) ((s1.length : Int) - 1) =
          (i, DiffAction.mount) :: moveLoopAux map seq i ((s1.length : Int) - 1) := by
        simp only [moveLoopAux, if_pos hm]
      rw [heq]
      have hda : diffActionAt map seq i = DiffAction.mount := by
        unfold diffActionAt
        rw [if_pos hm]
      rw [hda]
      congr 1
      refine ih s1 s2 hseq ?_ ?_
      · intro x hx
        have hxseq : x ∈ seq := by
          rw [hseq]
          exact List.mem_append_left s2 hx
        have hxi : x ≠ i := fun he => hnot (he ▸ hxseq)
        have := h1 x hx
        omega
      · intro x hx
        have := h2 x hx
        omega
    · by_cases hi : i ∈ seq
      · -- keep: i is the last element of s1
        have hi1 : i ∈ s1 := by
          rw [hseq] at hi
          rcases List.mem_append.mp hi with h | h
          · exact h
          · have := h2 i h
            omega
        have hs1sort : s1.Pairwise (· < ·) := by
          rw [hseq, List.pairwise_append] at hsort
          exact hsort.1
        obtain ⟨s1p, hs1eq, hs1lt⟩ := sorted_split_max s1 i hs1sort h1 hi1
        have hs1len : s1.length = s1p.length + 1 := by rw [hs1eq]; simp
        have hgetj : seq.getD (s1p.length) 0 = i := by
          rw [hseq, getD_append_lt s1 s2 s1p.length (by omega), hs1eq, getD_concat_len]
        have hjnat : ((s1.length : Int) - 1).toNat = s1p.length := by
          rw [hs1len]
          omega
        have hjge : ¬(((s1.length : Int) - 1) < 0) := by
          rw [hs1len]
          omega
        have hcond : ¬((((s1.length : Int) - 1) < 0) ∨
            (i : Int) ≠ ((seq.getD ((s1.length : Int) - 1).toNat 0 : Nat) : Int)) := by
          rw [hjnat, hgetj]
          push_neg
          exact ⟨by rw [hs1len]; omega, rfl⟩
        have heq : moveLoopAux map seq (i + 1) ((s1.length : Int) - 1) =
            (i, DiffAction.keep) :: moveLoopAux map seq i (((s1.length : Int) - 1) - 1) := by
          simp only [moveLoopAux, if_neg hm, if_neg hcond]
        rw [heq]
        have hda : diffActionAt map seq i = DiffAction.keep := by
          unfold diffActionAt
          rw [if_neg hm, if_pos hi]
        rw [hda]
        congr 1
        have hjrec : ((s1.length : Int) - 1) - 1 = (s1p.length : Int) - 1 := by
          rw [hs1len]
          push_cast
          ring
        rw [hjrec]
        refine ih s1p (i :: s2) ?_ hs1lt ?_
        · rw [hseq, hs1eq]
          simp
        · intro x hx
          rcases List.mem_cons.mp hx with rfl | hx2
          · exact le_refl x
          · have := h2 x hx2
            omega
      · -- move: i is matched but not in the subsequence
        have h1i : ∀ x ∈ s1, x < i := by
          intro x hx
          have hxseq : x ∈ seq := by
            rw [hseq]
            exact List.mem_append_left s2 hx
          have hxi : x ≠ i := fun he => hi (he ▸ hxseq)
          have := h1 x hx
          omega
        have hcond : (((s1.length : Int) - 1) < 0) ∨
            (i : Int) ≠ ((seq.getD ((s1.length : Int) - 1).toNat 0 : Nat) : Int) := by
          by_cases hs1 : s1 = []
          · subst hs1
            left
            simp
          · right
            have hpos : 0 < s1.length := List.length_pos.mpr hs1
            have hjnat : ((s1.length : Int) - 1).toNat = s1.length - 1 := by omega
            rw [hjnat]
            have hgetj : seq.getD (s1.length - 1) 0 = s1.getD (s1.length - 1) 0 := by
              rw [hseq]
              exact getD_append_lt s1 s2 (s1.length - 1) (by omega)
            rw [hgetj]
            have hmem2 : s1.getD (s1.length - 1) 0 ∈ s1 :=
              getD_mem_of_lt s1 (s1.length - 1) (by omega)
            have := h1i _ hmem2
            omega
        have heq : moveLoopAux map seq (i + 1) ((s1.length : Int) - 1) =
            (i, DiffAction.move) :: moveLoopAux map seq i ((s1.length : Int) - 1) := by
          simp only [moveLoopAux, if_neg hm, if_pos hcond]
        rw [heq]
        have hda : diffActionAt map seq i = DiffAction.move := by
          unfold diffActionAt
          rw [if_neg hm, if_neg hi]
        rw [hda]
        congr 1
        refine ih s1 s2 hseq h1i ?_
        intro x hx
        have := h2 x hx
        omega

/-- The whole backward loop of step 5.3 (with `moved = true`): every position
with `map[i] = 0` is freshly mounted, every position in the increasing
subsequence is left untouched, every other position is moved. -/
theorem moveMountLoop_spec (map seq : List Nat)
    (hsort : seq.Pairwise (· < ·))
    (hbound : ∀ x ∈ seq, x < map.length)
    (hmem : ∀ x ∈ seq, map.getD x 0 ≠ 0) :
    moveMountLoop map seq =
      (List.range map.length).reverse.map (fun k => (k, diffActionAt map seq k)) := by
  have h := moveLoopAux_spec map seq hsort hmem map.length seq []
    (by simp) hbound (by intro x hx; simp at hx)
  simpa [moveMountLoop] using h

/-- Claim C1 (amended): for every nonempty position array whose first entry is
non-zero, `getSequence` returns indices in strictly increasing order selecting
non-zero entries whose values form a longest strictly increasing subsequence
of the array's non-zero entries, and the keyed-diff move/mount loop leaves
exactly the positions of this sequence untouched, moves every other matched
position, and freshly mounts the unmatched (zero-mapped) positions. -/
theorem getSequence_keyedDiff_spec (arr : List Nat) (h1 : arr ≠ [])
    (h2 : arr.getD 0 0 ≠ 0) :
    NZIncr arr arr.length (getSequence arr) ∧
      (∀ s, NZIncr arr arr.length s → s.length ≤ (getSequence arr).length) ∧
      moveMountLoop arr (getSequence arr) =
        (List.range arr.length).reverse.map
          (fun k => (k, diffActionAt arr (getSequence arr) k)) := by
  obtain ⟨hnz, hmax⟩ := getSequence_spec arr h1 h2
  refine ⟨hnz, hmax, ?_⟩
  exact moveMountLoop_spec arr (getSequence arr) hnz.1
    (fun x hx => (hnz.2.1 x hx).1) (fun x hx => (hnz.2.1 x hx).2)

/-- Witness for `getSequence_keyedDiff_spec` at `arr = [2, 1, 3]`. -/
theorem getSequence_keyedDiff_spec_witness :
    (([2, 1, 3] : List Nat) ≠ [] ∧ ([2, 1, 3] : List Nat).getD 0 0 ≠ 0) ∧
      NZIncr [2, 1, 3] 3 (getSequence [2, 1, 3]) ∧
      moveMountLoop [2, 1, 3] (getSequence [2, 1, 3]) =
        [(2, DiffAction.keep), (1, DiffAction.keep), (0, DiffAction.move)] :=
  ⟨⟨by decide, by decide⟩,
    (getSequence_keyedDiff_spec [2, 1, 3] (by decide) (by decide)).1,
    by decide⟩

/-- Claim C1, as stated, is false: on `[0, 2, 3]` (first entry zero)
`getSequence` returns `[0, 1, 2]`, whose selected values include the zero
entry at index 0, so they do not form a subsequence of the non-zero entries. -/
theorem getSequence_zero_seed_cex :
    getSequence [0, 2, 3] = [0, 1, 2] ∧
      ¬ NZIncr [0, 2, 3] 3 (getSequence [0, 2, 3]) := by
  refine ⟨by decide, ?_⟩
  intro h
  have h0 : (0 : Nat) ∈ getSequence [0, 2, 3] := by decide
  exact (h.2.1 0 h0).2 rfl

/-- Claim C10: `getSequence` seeds `result` with index 0 unconditionally, so on
`[0, 2, 3]` — first entry zero, later entries non-zero — the returned sequence
`[0, 1, 2]` contains index 0 whose entry is 0; the keyed-diff caller is
unaffected because position 0, being mapped to 0, takes the fresh-mount branch
before the subsequence (move) check. -/
theorem getSequence_zero_seed_behavior :
    ([0, 2, 3] : List Nat).getD 0 0 = 0 ∧
      getSequence [0, 2, 3] = [0, 1, 2] ∧
      (0 : Nat) ∈ getSequence [0, 2, 3] ∧
      moveMountLoop [0, 2, 3] (getSequence [0, 2, 3]) =
        [(2, DiffAction.keep), (1, DiffAction.keep), (0, DiffAction.mount)] :=
  ⟨rfl, by decide, by decide, by decide⟩

/-! ### Generation-marker lemmas (C2) -/

theorem land_pow_eq_zero_iff (w m : Nat) : w &&& 2 ^ m = 0 ↔ w.testBit m = false := by
  rw [Nat.and_two_pow]
  have hpos : 0 < 2 ^ m := Nat.pos_pow_of_pos m (by norm_num)
  cases h : w.testBit m <;> simp <;> omega

theorem lor_pow_land_ne (w m : Nat) : (w ||| 2 ^ m) &&& 2 ^ m ≠ 0 := by
  rw [Ne, land_pow_eq_zero_iff, Nat.testBit_lor, Nat.testBit_two_pow_self]
  simp

theorem ldiff_lor_pow (w m : Nat) (h : w &&& 2 ^ m = 0) :
    Nat.ldiff (w ||| 2 ^ m) (2 ^ m) = w := by
  apply Nat.eq_of_testBit_eq
  intro i
  rw [Nat.testBit_ldiff, Nat.testBit_lor]
  by_cases hi : i = m
  · subst hi
    rw [land_pow_eq_zero_iff] at h
    simp [h, Nat.testBit_two_pow_self]
  · rw [Nat.testBit_two_pow_of_ne (fun he => hi he.symm)]
    simp

theorem ldiff_pow_of_clear (w m : Nat) (h : w &&& 2 ^ m = 0) :
    Nat.ldiff w (2 ^ m) = w := by
  apply Nat.eq_of_testBit_eq
  intro i
  rw [Nat.testBit_ldiff]
  by_cases hi : i = m
  · subst hi
    rw [land_pow_eq_zero_iff] at h
    simp [h]
  · rw [Nat.testBit_two_pow_of_ne (fun he => hi he.symm)]
    simp


/-- During the read phase (after `initDepMarkers`), the state is determined
per key: `w` carries the generation bit exactly on the previously tracked
deps, `n` exactly on the keys read so far (`P`), and the subscriber belongs
to a dep iff it was tracked before or read this pass. -/
theorem trackEffects_foldl_spec (bit m : Nat) (hb : bit = 2 ^ m) (st0 : EffSt)
    (hbits : ∀ k, (st0.deps k).w &&& bit = 0 ∧ (st0.deps k).n &&& bit = 0) :
    ∀ (reads : List Nat) (st : EffSt) (P : Nat → Bool),
      st.effDeps.Nodup →
      (∀ k, k ∈ st.effDeps ↔ (k ∈ st0.effDeps ∨ P k = true)) →
      (∀ k,
        (st.deps k).w =
          (if k ∈ st0.effDeps then (st0.deps k).w ||| bit else (st0.deps k).w) ∧
        (st.deps k).n = (if P k then (st0.deps k).n ||| bit else (st0.deps k).n) ∧
        ((st.deps k).hasEff = true ↔ (k ∈ st0.effDeps ∨ P k = true))) →
      (reads.foldl (trackEffects bit) st).effDeps.Nodup ∧
      (∀ k, k ∈ (reads.foldl (trackEffects bit) st).effDeps ↔
        (k ∈ st0.effDeps ∨ (P k || decide (k ∈ reads)) = true)) ∧
      (∀ k,
        ((reads.foldl (trackEffects bit) st).deps k).w =
          (if k ∈ st0.effDeps then (st0.deps k).w ||| bit else (st0.deps k).w) ∧
        ((reads.foldl (trackEffects bit) st).deps k).n =
          (if (P k || decide (k ∈ reads)) then (st0.deps k).n ||| bit else (st0.deps k).n) ∧
        (((reads.foldl (trackEffects bit) st).deps k).hasEff = true ↔
          (k ∈ st0.effDeps ∨ (P k || decide (k ∈ reads)) = true))) := by
  intro reads
  induction reads with
  | nil =>
    intro st P hnd hm hd
    simp only [List.foldl_nil]
    refine ⟨hnd, ?_, ?_⟩
    · intro k
      rw [hm k]
      simp
    · intro k
      obtain ⟨h1, h2, h3⟩ := hd k
      refine ⟨h1, ?_, ?_⟩
      · rw [h2]
        simp
      · rw [h3]
        simp
  | cons r rs ih =>
    intro st P hnd hm hd
    obtain ⟨hw_r, hn_r, he_r⟩ := hd r
    have hbit0 := hbits r
    have hnewt : newTracked (st.deps r) bit = true ↔ P r = true := by
      unfold newTracked
      rw [hn_r]
      by_cases hr : P r = true
      · rw [if_pos hr]
        subst hb
        have := lor_pow_land_ne (st0.deps r).n m
        simp only [hr, decide_eq_true_eq, iff_true]
        omega
      · rw [if_neg hr]
        have h0 : (st0.deps r).n &&& bit = 0 := hbit0.2
        simp only [decide_eq_true_eq]
        constructor
        · intro h
          omega
        · intro h
          exact absurd h hr
    have hwast : wasTracked (st.deps r) bit = true ↔ r ∈ st0.effDeps := by
      unfold wasTracked
      rw [hw_r]
      by_cases hr : r ∈ st0.effDeps
      · rw [if_pos hr]
        subst hb
        have := lor_pow_land_ne (st0.deps r).w m
        simp only [hr, decide_eq_true_eq, iff_true]
        omega
      · rw [if_neg hr]
        have h0 : (st0.deps r).w &&& bit = 0 := hbit0.1
        simp only [decide_eq_true_eq]
        constructor
        · intro h
          omega
        · intro h
          exact absurd h hr
    have hfold : (r :: rs).foldl (trackEffects bit) st =
        rs.foldl (trackEffects bit) (trackEffects bit st r) := rfl
    rw [hfold]
    -- the new "already read" predicate after processing `r`
    have hPmassage : ∀ k : Nat,
        ((fun k2 => P k2 || decide (k2 = r)) k || decide (k ∈ rs)) =
          (P k || decide (k ∈ r :: rs)) := by
      intro k
      by_cases h1 : k = r <;> by_cases h2 : k ∈ rs <;> simp [h1, h2]
    have hr_or : r ∈ st0.effDeps ∨ P r = true → r ∈ st.effDeps := (hm r).mpr
    -- establish the invariant for `trackEffects bit st r` w.r.t. the new predicate
    have hinv1 : (trackEffects bit st r).effDeps.Nodup ∧
        (∀ k, k ∈ (trackEffects bit st r).effDeps ↔
          (k ∈ st0.effDeps ∨ (P k || decide (k = r)) = true)) ∧
        (∀ k,
          ((trackEffects bit st r).deps k).w =
            (if k ∈ st0.effDeps then (st0.deps k).w ||| bit else (st0.deps k).w) ∧
          ((trackEffects bit st r).deps k).n =
            (if (P k || decide (k = r)) then (st0.deps k).n ||| bit else (st0.deps k).n) ∧
          (((trackEffects bit st r).deps k).hasEff = true ↔
            (k ∈ st0.effDeps ∨ (P k || decide (k = r)) = true))) := by
      by_cases hP : P r = true
      · -- `r` was already read this pass: no state change, and the predicate
        -- is pointwise unchanged
        have hnb : newTracked (st.deps r) bit = true := hnewt.mpr hP
        have hst : trackEffects bit st r = st := by
          simp only [trackEffects]
          rw [hnb]
          rfl
        have hPe : ∀ k, (P k || decide (k = r)) = P k := by
          intro k
          by_cases hk : k = r
          · subst hk
            rw [hP]
            rfl
          · simp [hk]
        rw [hst]
        refine ⟨hnd, ?_, ?_⟩
        · intro k
          rw [hPe k]
          exact hm k
        · intro k
          obtain ⟨h1, h2, h3⟩ := hd k
          rw [hPe k]
          exact ⟨h1, h2, h3⟩
      · have hnb : newTracked (st.deps r) bit = false := by
          rw [← Bool.not_eq_true]
          intro h
          exact hP (hnewt.mp h)
        have hPr : P r = false := by
          rw [← Bool.not_eq_true]
          exact hP
        by_cases hW : r ∈ st0.effDeps
        · -- previously tracked: only the `n` bit is set, no membership change
          have hwb : wasTracked (st.deps r) bit = true := hwast.mpr hW
          have hst : trackEffects bit st r =
              { st with
                deps :=
                  fupd st.deps r { st.deps r with n := (st.deps r).n ||| bit } } := by
            simp only [trackEffects]
            rw [hnb, hwb]
            rfl
          rw [hst]
          refine ⟨hnd, ?_, ?_⟩
          · intro k
            by_cases hk : k = r
            · subst hk
              simp only [List.mem_append]
              constructor
              · intro _
                exact Or.inl hW
              · intro _
                exact (hm k).mpr (Or.inl hW)
            · rw [show (P k || decide (k = r)) = P k by simp [hk]]
              exact hm k
          · intro k
            by_cases hk : k = r
            · subst hk
              obtain ⟨h1, h2, h3⟩ := hd k
              refine ⟨?_, ?_, ?_⟩
              · show (fupd st.deps k _ k).w = _
                rw [fupd_self]
                exact h1
              · show (fupd st.deps k _ k).n = _
                rw [fupd_self]
                show (st.deps k).n ||| bit = _
                rw [h2, if_neg (by rw [hPr]; simp), if_pos (by simp)]
              · show (fupd st.deps k _ k).hasEff = true ↔ _
                rw [fupd_self]
                show (st.deps k).hasEff = true ↔ _
                rw [h3]
                constructor
                · intro _
                  exact Or.inl hW
                · intro _
                  exact Or.inl hW
            · obtain ⟨h1, h2, h3⟩ := hd k
              refine ⟨?_, ?_, ?_⟩
              · show (fupd st.deps r _ k).w = _
                rw [fupd_ne st.deps r _ k hk]
                exact h1
              · show (fupd st.deps r _ k).n = _
                rw [fupd_ne st.deps r _ k hk,
                  show (P k || decide (k = r)) = P k by simp [hk]]
                exact h2
              · show (fupd st.deps r _ k).hasEff = true ↔ _
                rw [fupd_ne st.deps r _ k hk,
                  show (P k || decide (k = r)) = P k by simp [hk]]
                exact h3
        · -- fresh dependency: set `n`, add the subscriber, push the dep
          have hwb : wasTracked (st.deps r) bit = false := by
            rw [← Bool.not_eq_true]
            intro h
            exact hW (hwast.mp h)
          have hst : trackEffects bit st r =
              { deps := fupd st.deps r
                  { w := (st.deps r).w, n := (st.deps r).n ||| bit, hasEff := true },
                effDeps := st.effDeps ++ [r] } := by
            simp only [trackEffects]
            rw [hnb, hwb]
            rfl
          have hrnot : r ∉ st.effDeps := by
            intro h
            rcases (hm r).mp h with h2 | h2
            · exact hW h2
            · rw [hPr] at h2
              exact Bool.false_ne_true h2
          rw [hst]
          refine ⟨?_, ?_, ?_⟩
          · show (st.effDeps ++ [r]).Nodup
            rw [List.nodup_append]
            refine ⟨hnd, List.nodup_singleton r, ?_⟩
            intro a ha hb
            rw [List.mem_singleton] at hb
            subst hb
            exact hrnot ha
          · intro k
            show k ∈ st.effDeps ++ [r] ↔ _
            rw [List.mem_append, List.mem_singleton, hm k]
            by_cases hk : k = r
            · subst hk
              simp
            · simp [hk]
          · intro k
            by_cases hk : k = r
            · subst hk
              refine ⟨?_, ?_, ?_⟩
              · show (fupd st.deps k _ k).w = _
                rw [fupd_self]
                exact (hd k).1
              · show (fupd st.deps k _ k).n = _
                rw [fupd_self]
                show (st.deps k).n ||| bit = _
                rw [(hd k).2.1, if_neg (by rw [hPr]; simp), if_pos (by simp)]
              · show (fupd st.deps k _ k).hasEff = true ↔ _
                rw [fupd_self]
                simp
            · refine ⟨?_, ?_, ?_⟩
              · show (fupd st.deps r _ k).w = _
                rw [fupd_ne st.deps r _ k hk]
                exact (hd k).1
              · show (fupd st.deps r _ k).n = _
                rw [fupd_ne st.deps r _ k hk,
                  show (P k || decide (k = r)) = P k by simp [hk]]
                exact (hd k).2.1
              · show (fupd st.deps r _ k).hasEff = true ↔ _
                rw [fupd_ne st.deps r _ k hk,
                  show (P k || decide (k = r)) = P k by simp [hk]]
                exact (hd k).2.2
    obtain ⟨i1, i2, i3⟩ := hinv1
    obtain ⟨c1, c2, c3⟩ := ih (trackEffects bit st r) (fun k2 => P k2 || decide (k2 = r)) i1 i2 i3
    refine ⟨c1, ?_, ?_⟩
    · intro k
      rw [c2 k, hPmassage k]
    · intro k
      obtain ⟨d1, d2, d3⟩ := c3 k
      refine ⟨d1, ?_, ?_⟩
      · rw [d2, hPmassage k]
      · rw [d3, hPmassage k]

/-- A generation bit test on a value that either did or did not get the bit
merged in decides the underlying condition. -/
theorem tracked_bit_eq (m w0 : Nat) (h0 : w0 &&& 2 ^ m = 0) (c : Prop) [Decidable c] :
    ((decide (0 < (if c then w0 ||| 2 ^ m else w0) &&& 2 ^ m)) = true) ↔ c := by
  by_cases hc : c
  · rw [if_pos hc]
    have hne := lor_pow_land_ne w0 m
    constructor
    · intro _
      exact hc
    · intro _
      rw [decide_eq_true_eq]
      omega
  · rw [if_neg hc]
    constructor
    · intro h
      rw [decide_eq_true_eq] at h
      omega
    · intro h
      exact absurd h hc

/-- The `finalizeDepMarkers` fold acts independently on each (nodup) dep:
bits cleared, stale memberships deleted, surviving deps compacted in order. -/
theorem finalizeStep_foldl_spec (bit : Nat) :
    ∀ (L : List Nat) (d0 : Nat → DepData) (kept : List Nat), L.Nodup →
      (∀ k, (L.foldl (finalizeStep bit) (d0, kept)).1 k =
        (if k ∈ L then
          ({ w := Nat.ldiff (d0 k).w bit, n := Nat.ldiff (d0 k).n bit,
             hasEff := if wasTracked (d0 k) bit && !(newTracked (d0 k) bit) then false
               else (d0 k).hasEff } : DepData)
        else d0 k)) ∧
      (L.foldl (finalizeStep bit) (d0, kept)).2 =
        kept ++ L.filter (fun k => !(wasTracked (d0 k) bit && !(newTracked (d0 k) bit))) := by
  intro L
  induction L with
  | nil =>
    intro d0 kept _
    simp only [List.foldl_nil]
    constructor
    · intro k
      simp
    · simp
  | cons a L ih =>
    intro d0 kept hnd
    have hanotin : a ∉ L := (List.nodup_cons.mp hnd).1
    have hndL : L.Nodup := (List.nodup_cons.mp hnd).2
    have hstep : finalizeStep bit (d0, kept) a =
        (fupd d0 a
          { w := Nat.ldiff (d0 a).w bit, n := Nat.ldiff (d0 a).n bit,
            hasEff := if wasTracked (d0 a) bit && !(newTracked (d0 a) bit) then false
              else (d0 a).hasEff },
         if wasTracked (d0 a) bit && !(newTracked (d0 a) bit) then kept
         else kept ++ [a]) := rfl
    have hfold : ((a :: L).foldl (finalizeStep bit) (d0, kept)) =
        L.foldl (finalizeStep bit) (finalizeStep bit (d0, kept) a) := rfl
    rw [hfold, hstep]
    obtain ⟨ih1, ih2⟩ := ih _ _ hndL
    constructor
    · intro k
      rw [ih1 k]
      by_cases hkL : k ∈ L
      · have hka : k ≠ a := fun he => hanotin (he ▸ hkL)
        rw [if_pos hkL, if_pos (show k ∈ a :: L from List.mem_cons_of_mem a hkL),
          fupd_ne d0 a _ k hka]
      · by_cases hka : k = a
        · subst hka
          rw [if_neg hkL, if_pos (show k ∈ k :: L from List.mem_cons_self k L), fupd_self]
        · rw [if_neg hkL,
            if_neg (show ¬(k ∈ a :: L) from by
              rw [List.mem_cons]
              rintro (h | h)
              · exact hka h
              · exact hkL h),
            fupd_ne d0 a _ k hka]
    · rw [ih2]
      have hfc : (L.filter (fun k =>
            !(wasTracked ((fupd d0 a
              { w := Nat.ldiff (d0 a).w bit, n := Nat.ldiff (d0 a).n bit,
                hasEff := if wasTracked (d0 a) bit && !(newTracked (d0 a) bit) then false
                  else (d0 a).hasEff }) k) bit &&
              !(newTracked ((fupd d0 a
              { w := Nat.ldiff (d0 a).w bit, n := Nat.ldiff (d0 a).n bit,
                hasEff := if wasTracked (d0 a) bit && !(newTracked (d0 a) bit) then false
                  else (d0 a).hasEff }) k) bit)))) =
          L.filter (fun k => !(wasTracked (d0 k) bit && !(newTracked (d0 k) bit))) := by
        apply List.filter_congr
        intro k hk
        have hka : k ≠ a := fun he => hanotin (he ▸ hk)
        rw [fupd_ne d0 a _ k hka]
      rw [hfc, List.filter_cons]
      by_cases hstale : (wasTracked (d0 a) bit && !(newTracked (d0 a) bit)) = true
      · have hpred : (!(wasTracked (d0 a) bit && !(newTracked (d0 a) bit))) = false := by
          rw [hstale]
          rfl
        rw [hpred, hstale]
        simp
      · rw [Bool.not_eq_true] at hstale
        have hpred : (!(wasTracked (d0 a) bit && !(newTracked (d0 a) bit))) = true := by
          rw [hstale]
          rfl
        rw [hpred, hstale]
        simp

/-- Complete characterisation of one `run()`'s marker life cycle: every dep's
`w` and `n` return exactly to their pre-run values (in particular cleared of
the generation bit), and the subscriber is a member of a dep set iff the
corresponding key was read during this run. -/
theorem runEffect_spec (bit m : Nat) (hb : bit = 2 ^ m) (st : EffSt)
    (hwf : EffWF bit st) (reads : List Nat) :
    (∀ k, ((runEffect bit reads st).deps k).w = (st.deps k).w ∧
          ((runEffect bit reads st).deps k).n = (st.deps k).n) ∧
    (∀ k, (((runEffect bit reads st).deps k).hasEff = true ↔ k ∈ reads)) ∧
    (runEffect bit reads st).effDeps.Nodup ∧
    (∀ k, k ∈ (runEffect bit reads st).effDeps ↔ k ∈ reads) := by
  obtain ⟨hnd0, hmem0, hbits0⟩ := hwf
  have hinit_deps : ∀ k, (initDepMarkers bit st).deps k =
      (if k ∈ st.effDeps then { st.deps k with w := (st.deps k).w ||| bit }
       else st.deps k) := fun k => rfl
  obtain ⟨t1, t2, t3⟩ := trackEffects_foldl_spec bit m hb st hbits0 reads
    (initDepMarkers bit st) (fun _ => false)
    (show (initDepMarkers bit st).effDeps.Nodup from hnd0)
    (fun k => by
      show k ∈ st.effDeps ↔ _
      simp)
    (fun k => by
      rw [hinit_deps k]
      by_cases hk : k ∈ st.effDeps
      · rw [if_pos hk]
        refine ⟨?_, by simp, ?_⟩
        · rw [if_pos hk]
        · show (st.deps k).hasEff = true ↔ _
          simp [hmem0 k, hk]
      · rw [if_neg hk]
        refine ⟨by rw [if_neg hk], by simp, ?_⟩
        simp [hmem0 k, hk])
  obtain ⟨f1, f2⟩ := finalizeStep_foldl_spec bit
    (reads.foldl (trackEffects bit) (initDepMarkers bit st)).effDeps
    (reads.foldl (trackEffects bit) (initDepMarkers bit st)).deps [] t1
  have hrun1 : (runEffect bit reads st).deps =
      ((reads.foldl (trackEffects bit) (initDepMarkers bit st)).effDeps.foldl
        (finalizeStep bit)
        ((reads.foldl (trackEffects bit) (initDepMarkers bit st)).deps, [])).1 := rfl
  have hrun2 : (runEffect bit reads st).effDeps =
      ((reads.foldl (trackEffects bit) (initDepMarkers bit st)).effDeps.foldl
        (finalizeStep bit)
        ((reads.foldl (trackEffects bit) (initDepMarkers bit st)).deps, [])).2 := rfl
  have hS2mem : ∀ k, k ∈ (reads.foldl (trackEffects bit) (initDepMarkers bit st)).effDeps ↔
      (k ∈ st.effDeps ∨ k ∈ reads) := by
    intro k
    rw [t2 k]
    simp
  have hwasT : ∀ k,
      wasTracked ((reads.foldl (trackEffects bit) (initDepMarkers bit st)).deps k) bit = true ↔
        k ∈ st.effDeps := by
    intro k
    unfold wasTracked
    rw [(t3 k).1]
    subst hb
    exact tracked_bit_eq m ((st.deps k).w) (hbits0 k).1 (k ∈ st.effDeps)
  have hnewT : ∀ k,
      newTracked ((reads.foldl (trackEffects bit) (initDepMarkers bit st)).deps k) bit = true ↔
        k ∈ reads := by
    intro k
    unfold newTracked
    rw [(t3 k).2.1]
    have hcond : ((false || decide (k ∈ reads)) = true) ↔ (k ∈ reads) := by simp
    subst hb
    rw [tracked_bit_eq m ((st.deps k).n) (hbits0 k).2 ((false || decide (k ∈ reads)) = true)]
    exact hcond
  refine ⟨?_, ?_, ?_, ?_⟩
  · -- w and n return to their pre-run values
    intro k
    rw [hrun1, f1 k]
    by_cases hk2 : k ∈ (reads.foldl (trackEffects bit) (initDepMarkers bit st)).effDeps
    · rw [if_pos hk2]
      constructor
      · show Nat.ldiff ((reads.foldl (trackEffects bit) (initDepMarkers bit st)).deps k).w bit = _
        rw [(t3 k).1]
        by_cases hk : k ∈ st.effDeps
        · rw [if_pos hk]
          subst hb
          exact ldiff_lor_pow ((st.deps k).w) m (hbits0 k).1
        · rw [if_neg hk]
          subst hb
          exact ldiff_pow_of_clear ((st.deps k).w) m (hbits0 k).1
      · show Nat.ldiff ((reads.foldl (trackEffects bit) (initDepMarkers bit st)).deps k).n bit = _
        rw [(t3 k).2.1]
        by_cases hk : (false || decide (k ∈ reads)) = true
        · rw [if_pos hk]
          subst hb
          exact ldiff_lor_pow ((st.deps k).n) m (hbits0 k).2
        · rw [if_neg hk]
          subst hb
          exact ldiff_pow_of_clear ((st.deps k).n) m (hbits0 k).2
    · rw [if_neg hk2]
      have hk0 : ¬ k ∈ st.effDeps := fun h => hk2 ((hS2mem k).mpr (Or.inl h))
      have hkr : ¬ k ∈ reads := fun h => hk2 ((hS2mem k).mpr (Or.inr h))
      constructor
      · rw [(t3 k).1, if_neg hk0]
      · rw [(t3 k).2.1, if_neg (by simp [hkr])]
  · -- membership iff read during this run
    intro k
    rw [hrun1, f1 k]
    by_cases hk2 : k ∈ (reads.foldl (trackEffects bit) (initDepMarkers bit st)).effDeps
    · rw [if_pos hk2]
      by_cases hkr : k ∈ reads
      · have hnT : newTracked
            ((reads.foldl (trackEffects bit) (initDepMarkers bit st)).deps k) bit = true :=
          (hnewT k).mpr hkr
        show (if _ then false else _) = true ↔ _
        rw [hnT]
        simp only [Bool.not_true, Bool.and_false, Bool.false_eq_true, if_false]
        rw [(t3 k).2.2]
        simp [hkr]
      · have hk0 : k ∈ st.effDeps := by
          rcases (hS2mem k).mp hk2 with h | h
          · exact h
          · exact absurd h hkr
        have hwT : wasTracked
            ((reads.foldl (trackEffects bit) (initDepMarkers bit st)).deps k) bit = true :=
          (hwasT k).mpr hk0
        have hnT : newTracked
            ((reads.foldl (trackEffects bit) (initDepMarkers bit st)).deps k) bit = false := by
          rw [← Bool.not_eq_true]
          intro h
          exact hkr ((hnewT k).mp h)
        show (if _ then false else _) = true ↔ _
        rw [hwT, hnT]
        simp [hkr]
    · rw [if_neg hk2]
      have hk0 : ¬ k ∈ st.effDeps := fun h => hk2 ((hS2mem k).mpr (Or.inl h))
      have hkr : ¬ k ∈ reads := fun h => hk2 ((hS2mem k).mpr (Or.inr h))
      rw [(t3 k).2.2]
      simp [hk0, hkr]
  · -- no duplicate deps afterwards
    rw [hrun2, f2]
    simp only [List.nil_append]
    exact List.Nodup.filter _ t1
  · -- the kept deps list holds exactly the read keys
    intro k
    rw [hrun2, f2]
    simp only [List.nil_append, List.mem_filter]
    constructor
    · rintro ⟨hk2, hpred⟩
      by_cases hkr : k ∈ reads
      · exact hkr
      · have hk0 : k ∈ st.effDeps := by
          rcases (hS2mem k).mp hk2 with h | h
          · exact h
          · exact absurd h hkr
        have hwT := (hwasT k).mpr hk0
        have hnT : newTracked
            ((reads.foldl (trackEffects bit) (initDepMarkers bit st)).deps k) bit = false := by
          rw [← Bool.not_eq_true]
          intro h
          exact hkr ((hnewT k).mp h)
        rw [hwT, hnT] at hpred
        simp at hpred
    · intro hkr
      refine ⟨(hS2mem k).mpr (Or.inr hkr), ?_⟩
      have hnT := (hnewT k).mpr hkr
      rw [hnT]
      simp

/-- Claim C2: after any completed `run()` at the current generation bit, every
dependency set's `wasTracked`/`newTracked` masks are cleared of that bit (they
return exactly to their pre-run values), and the subscriber is a member of a
dependency set iff the corresponding key was read during that most recent run;
consequently, after a second run with a different read set (the
`cond ? a : b` branch switch), a key read only in the first run no longer
reaches the subscriber while a newly read key does. -/
theorem run_marker_invariant (bit m : Nat) (hb : bit = 2 ^ m) (st : EffSt)
    (hwf : EffWF bit st) (reads reads2 : List Nat) :
    (∀ k, ((runEffect bit reads st).deps k).w &&& bit = 0 ∧
          ((runEffect bit reads st).deps k).n &&& bit = 0) ∧
    (∀ k, (((runEffect bit reads st).deps k).hasEff = true ↔ k ∈ reads)) ∧
    EffWF bit (runEffect bit reads st) ∧
    (∀ k, (((runEffect bit reads2 (runEffect bit reads st)).deps k).hasEff = true ↔
      k ∈ reads2)) := by
  obtain ⟨e1, e2, e3, e4⟩ := runEffect_spec bit m hb st hwf reads
  have hwf2 : EffWF bit (runEffect bit reads st) := by
    refine ⟨e3, ?_, ?_⟩
    · intro k
      rw [e2 k, e4 k]
    · intro k
      rw [(e1 k).1, (e1 k).2]
      exact hwf.2.2 k
  refine ⟨?_, e2, hwf2, ?_⟩
  · intro k
    rw [(e1 k).1, (e1 k).2]
    exact hwf.2.2 k
  · exact (runEffect_spec bit m hb _ hwf2 reads2).2.1

/-- Witness for `run_marker_invariant`: a fresh subscriber reading keys 0 and
1, then keys 0 and 2; after the second run, key 1 no longer reaches it. -/
theorem run_marker_invariant_witness :
    ((2 : Nat) = 2 ^ 1 ∧ EffWF 2 ⟨fun _ => ⟨0, 0, false⟩, []⟩) ∧
      (((runEffect 2 [0, 2] (runEffect 2 [0, 1]
          ⟨fun _ => ⟨0, 0, false⟩, []⟩)).deps 1).hasEff = true ↔ (1 : Nat) ∈ [0, 2]) := by
  have hwf : EffWF 2 ⟨fun _ => ⟨0, 0, false⟩, []⟩ := by
    refine ⟨List.nodup_nil, ?_, ?_⟩
    · intro k
      simp
    · intro k
      constructor
      · show (0 : Nat) &&& 2 = 0
        decide
      · show (0 : Nat) &&& 2 = 0
        decide
  exact ⟨⟨by decide, hwf⟩, (run_marker_invariant 2 1 (by decide) _ hwf [0, 1] [0, 2]).2.2.2 1⟩

/-! ### Scheduler lemmas (C3, C4) -/

theorem insertIdx_perm_cons {α : Type} (a : α) :
    ∀ (n : Nat) (l : List α), n ≤ l.length → (l.insertIdx n a).Perm (a :: l) := by
  intro n
  induction n with
  | zero =>
    intro l _
    rw [List.insertIdx_zero]
  | succ n ih =>
    intro l hl
    cases l with
    | nil => simp at hl
    | cons b t =>
      rw [List.insertIdx_succ_cons]
      exact (List.Perm.cons b (ih t (by simpa using hl))).trans (List.Perm.swap a b t)

/-- `queueJob` while idle: dedup by identity, else insert somewhere —
up to permutation it prepends the job when (and only when) it is new. -/
theorem queueJob_perm (q : List SchedulerJob) (job : SchedulerJob) :
    (queueJob q 0 false job).Perm (if job ∈ q then q else job :: q) := by
  unfold queueJob
  have hdrop : List.drop (if (false && job.allowRecurse) = true then 0 + 1 else 0) q = q := by
    simp
  rw [hdrop]
  by_cases hmem : job ∈ q
  · have hql : ¬ q.length = 0 := by
      intro h
      rw [List.length_eq_zero] at h
      subst h
      simp at hmem
    rw [if_neg (by
      push_neg
      exact ⟨hql, hmem⟩), if_pos hmem]
  · rw [if_pos (Or.inr hmem), if_neg hmem]
    cases hid : job.id with
    | none => exact List.perm_append_singleton job q
    | some id => exact insertIdx_perm_cons job _ q (min_le_right _ _)

theorem enqueue_foldl_spec (js : List SchedulerJob) :
    ∀ q : List SchedulerJob, q.Nodup →
      (js.foldl (fun q2 j2 => queueJob q2 0 false j2) q).Nodup ∧
      (∀ j, j ∈ js.foldl (fun q2 j2 => queueJob q2 0 false j2) q ↔ (j ∈ q ∨ j ∈ js)) := by
  induction js with
  | nil =>
    intro q hq
    refine ⟨hq, ?_⟩
    intro j
    simp
  | cons a js ih =>
    intro q hq
    have hperm := queueJob_perm q a
    have hnd1 : (queueJob q 0 false a).Nodup := by
      rw [hperm.nodup_iff]
      by_cases hmem : a ∈ q
      · rw [if_pos hmem]
        exact hq
      · rw [if_neg hmem]
        exact List.Nodup.cons hmem hq
    have hmem1 : ∀ j, j ∈ queueJob q 0 false a ↔ (j ∈ q ∨ j = a) := by
      intro j
      rw [hperm.mem_iff]
      by_cases hmem : a ∈ q
      · rw [if_pos hmem]
        constructor
        · exact Or.inl
        · rintro (h | rfl)
          · exact h
          · exact hmem
      · rw [if_neg hmem, List.mem_cons]
        tauto
    obtain ⟨c1, c2⟩ := ih (queueJob q 0 false a) hnd1
    refine ⟨c1, ?_⟩
    intro j
    rw [show (a :: js).foldl (fun q2 j2 => queueJob q2 0 false j2) q =
        js.foldl (fun q2 j2 => queueJob q2 0 false j2) (queueJob q 0 false a) from rfl]
    rw [c2 j, hmem1 j, List.mem_cons]
    tauto

theorem enqueueAll_nodup (js : List SchedulerJob) : (enqueueAll js).Nodup :=
  (enqueue_foldl_spec js [] List.nodup_nil).1

theorem enqueueAll_mem (js : List SchedulerJob) (j : SchedulerJob) :
    j ∈ enqueueAll js ↔ j ∈ js :=
  Iff.trans ((enqueue_foldl_spec js [] List.nodup_nil).2 j) (by simp)

instance : IsTotal SchedulerJob jobLeP where
  total a b := by
    unfold jobLeP jobLe
    rcases ha : a.id with _ | x <;> rcases hb : b.id with _ | y
    · left
      rfl
    · right
      rfl
    · left
      rfl
    · show (if x = y then !(b.pre && !a.pre) else decide (x ≤ y)) = true ∨
        (if y = x then !(a.pre && !b.pre) else decide (y ≤ x)) = true
      by_cases hxy : x = y
      · subst hxy
        rw [if_pos rfl, if_pos rfl]
        cases hbp : b.pre <;> cases hap : a.pre <;> simp
      · rw [if_neg hxy, if_neg (fun h => hxy h.symm)]
        simp only [decide_eq_true_eq]
        omega

instance : IsTrans SchedulerJob jobLeP where
  trans a b c hab hbc := by
    unfold jobLeP jobLe at hab hbc ⊢
    rcases ha : a.id with _ | x <;> rcases hb : b.id with _ | y <;>
      rcases hc : c.id with _ | z <;> rw [ha, hb] at hab <;> rw [hb, hc] at hbc <;>
      try rfl
    all_goals try exact absurd hab Bool.false_ne_true
    all_goals try exact absurd hbc Bool.false_ne_true
    show (if x = z then !(c.pre && !a.pre) else decide (x ≤ z)) = true
    have hab2 : (if x = y then !(b.pre && !a.pre) else decide (x ≤ y)) = true := hab
    have hbc2 : (if y = z then !(c.pre && !b.pre) else decide (y ≤ z)) = true := hbc
    by_cases hxy : x = y
    · subst hxy
      rw [if_pos rfl] at hab2
      by_cases hyz : x = z
      · subst hyz
        rw [if_pos rfl] at hbc2
        rw [if_pos rfl]
        revert hab2 hbc2
        cases a.pre <;> cases b.pre <;> cases c.pre <;> decide
      · rw [if_neg hyz] at hbc2
        rw [if_neg hyz]
        exact hbc2
    · by_cases hyz : y = z
      · subst hyz
        rw [if_neg hxy] at hab2
        rw [if_neg hxy]
        exact hab2
      · rw [if_neg hxy] at hab2
        rw [if_neg hyz] at hbc2
        simp only [decide_eq_true_eq] at hab2 hbc2
        rw [if_neg (show ¬ x = z by omega)]
        simp only [decide_eq_true_eq]
        omega

theorem jobLe_implies_ordered (a b : SchedulerJob) (h : jobLeP a b) : jobOrdered a b := by
  unfold jobLeP jobLe at h
  unfold jobOrdered
  rcases ha : a.id with _ | x <;> rcases hb : b.id with _ | y <;> rw [ha, hb] at h <;>
    try exact trivial
  all_goals try exact absurd h Bool.false_ne_true
  show x < y ∨ (x = y ∧ (b.pre = true → a.pre = true))
  have h2 : (if x = y then !(b.pre && !a.pre) else decide (x ≤ y)) = true := h
  by_cases hxy : x = y
  · subst hxy
    rw [if_pos rfl] at h2
    right
    refine ⟨rfl, fun hbp => ?_⟩
    cases hap : a.pre
    · rw [hbp, hap] at h2
      simp at h2
    · rfl
  · rw [if_neg hxy] at h2
    simp only [decide_eq_true_eq] at h2
    left
    omega

theorem mem_flushedJobs (js : List SchedulerJob) (j : SchedulerJob) :
    j ∈ flushedJobs (enqueueAll js) ↔ j ∈ js ∧ j.active = true := by
  unfold flushedJobs flushOrder
  rw [List.mem_filter, (List.perm_insertionSort jobLeP (enqueueAll js)).mem_iff,
    enqueueAll_mem]

theorem flushedJobs_nodup (js : List SchedulerJob) :
    (flushedJobs (enqueueAll js)).Nodup := by
  unfold flushedJobs flushOrder
  exact (((List.perm_insertionSort jobLeP (enqueueAll js)).nodup_iff).2
    (enqueueAll_nodup js)).filter _

/-- C3: jobs enqueued before a flush are executed in ascending id order
(`none` ids after all numbered ids), pre-phase before non-pre on equal ids;
in particular enqueuing ids 2 then 1 executes 1 before 2. -/
theorem scheduler_flush_order (js : List SchedulerJob) :
    (flushedJobs (enqueueAll js)).Pairwise jobOrdered ∧
    (∀ j ∈ js, j.active = true → j ∈ flushedJobs (enqueueAll js)) ∧
    flushedJobs (enqueueAll
        [⟨some 2, false, true, false, 0⟩, ⟨some 1, false, true, false, 1⟩]) =
      [⟨some 1, false, true, false, 1⟩, ⟨some 2, false, true, false, 0⟩] := by
  refine ⟨?_, ?_, by decide⟩
  · exact ((List.sorted_insertionSort jobLeP (enqueueAll js)).imp
      (fun h => jobLe_implies_ordered _ _ h)).filter _
  · intro j hj hact
    exact (mem_flushedJobs js j).2 ⟨hj, hact⟩

theorem scheduler_flush_order_witness :
    (⟨some 5, false, true, false, 0⟩ : SchedulerJob) ∈
      flushedJobs (enqueueAll [⟨some 5, false, true, false, 0⟩]) :=
  (scheduler_flush_order [⟨some 5, false, true, false, 0⟩]).2.1
    ⟨some 5, false, true, false, 0⟩ (by decide) rfl

/-- C4: enqueuing the same job (same identity) twice within one pending
phase yields exactly one execution of that job in the flush. -/
theorem queueJob_double_enqueue (pre post : List SchedulerJob)
    (j : SchedulerJob) (hact : j.active = true) :
    (flushedJobs (enqueueAll (pre ++ j :: post ++ [j]))).count j = 1 :=
  List.count_eq_one_of_mem (flushedJobs_nodup _)
    ((mem_flushedJobs _ j).2 ⟨by simp, hact⟩)

theorem queueJob_double_enqueue_witness :
    (flushedJobs (enqueueAll ([] ++ (⟨some 3, false, true, false, 7⟩ : SchedulerJob) ::
      [] ++ [⟨some 3, false, true, false, 7⟩]))).count
      ⟨some 3, false, true, false, 7⟩ = 1 :=
  queueJob_double_enqueue [] [] ⟨some 3, false, true, false, 7⟩ rfl

theorem computedInvalidate_of_dirty (st : ComputedState) (h : st.dirty = true) :
    computedInvalidate st = st := by
  unfold computedInvalidate
  rw [h]
  rfl

theorem computedInvalidate_iterate_of_dirty (n : Nat) (st : ComputedState)
    (h : st.dirty = true) : computedInvalidate^[n] st = st := by
  induction n with
  | zero => rfl
  | succ m ih =>
    rw [Function.iterate_succ_apply, computedInvalidate_of_dirty st h, ih]

theorem computedInvalidate_iterate_of_clean (n : Nat) (st : ComputedState)
    (h : st.dirty = false) :
    computedInvalidate^[n + 1] st =
      { st with dirty := true, notifies := st.notifies + 1 } := by
  rw [Function.iterate_succ_apply]
  have h1 : computedInvalidate st =
      { st with dirty := true, notifies := st.notifies + 1 } := by
    unfold computedInvalidate
    rw [h]
    rfl
  rw [h1, computedInvalidate_iterate_of_dirty n _ rfl]

/-- C5: reading a computed twice with no intervening invalidation runs the
getter only on the first read (the second read returns the cached value);
any positive number of invalidations between reads causes exactly one
getter re-run and exactly one notification of the cell's own dependency
set; an invalidation arriving while the cell is already dirty is a no-op
(no notification). -/
theorem computed_caching (g : Nat → Nat) (s : Nat) (st : ComputedState) (n : Nat) :
    (computedRead g s (computedRead g s st).1).1 = (computedRead g s st).1 ∧
    (computedRead g s (computedRead g s st).1).2 = (computedRead g s st).1.cached ∧
    (st.dirty = false →
      (computedRead g s (computedInvalidate^[n + 1] st)).1.runs = st.runs + 1 ∧
      (computedRead g s (computedInvalidate^[n + 1] st)).2 = g s ∧
      (computedInvalidate^[n + 1] st).notifies = st.notifies + 1) ∧
    (st.dirty = true → computedInvalidate st = st) := by
  refine ⟨?_, ?_, ?_, computedInvalidate_of_dirty st⟩
  · unfold computedRead
    by_cases h : st.dirty = true
    · rw [if_pos h]
      rfl
    · rw [if_neg h]
      rw [if_neg h]
  · unfold computedRead
    by_cases h : st.dirty = true
    · rw [if_pos h]
      rfl
    · rw [if_neg h]
      rw [if_neg h]
  · intro h
    rw [computedInvalidate_iterate_of_clean n st h]
    unfold computedRead
    rw [if_pos rfl]
    exact ⟨rfl, rfl, rfl⟩

theorem computed_caching_witness :
    (computedRead (fun x => x + 1) 5 (computedInvalidate^[3] ⟨false, 9, 4, 2⟩)).1.runs = 5 ∧
    (computedRead (fun x => x + 1) 5 (computedInvalidate^[3] ⟨false, 9, 4, 2⟩)).2 = 6 ∧
    (computedInvalidate^[3] (⟨false, 9, 4, 2⟩ : ComputedState)).notifies = 3 :=
  (computed_caching (fun x => x + 1) 5 ⟨false, 9, 4, 2⟩ 2).2.2.1 rfl

theorem lookupProxy_wf (st : ReactiveRegistry) (hwf : RegWF st) (vr : Variant)
    (t p : Val) (h : lookupProxy st vr t = some p) :
    ∃ pid, p = Val.proxyOf t vr pid := by
  unfold lookupProxy at h
  rcases hf : (st.reg vr).find? (fun e => decide (e.1 = t)) with _ | e
  · rw [hf] at h
    exact absurd h (by simp)
  · rw [hf] at h
    have h2 : e.2 = p := by
      have : Option.map (fun e => e.2) (some e) = some p := h
      simpa using this
    have hpred := List.find?_some hf
    have hmem := List.mem_of_find?_eq_some hf
    simp only [decide_eq_true_eq] at hpred
    obtain ⟨pid, hp⟩ := hwf vr e.1 e.2 (by rw [Prod.mk.eta]; exact hmem)
    exact ⟨pid, by rw [← h2, hp, hpred]⟩

theorem createReactiveObject_eq (s : ReactiveRegistry) (vr : Variant)
    (id : Nat) (kind : ObjKind) (hkind : kind ≠ ObjKind.otherK) :
    createReactiveObject s vr (Val.obj id kind false) =
      match lookupProxy s vr (Val.obj id kind false) with
      | some existing => (s, existing)
      | none => (registerProxy s vr (Val.obj id kind false),
          Val.proxyOf (Val.obj id kind false) vr s.next) := by
  have hty : getTargetType (Val.obj id kind false) ≠ TargetTypeE.invalid := by
    cases kind <;> first
      | exact absurd rfl hkind
      | exact fun hcon => TargetTypeE.noConfusion hcon
  unfold createReactiveObject
  rw [if_neg (show ¬((!isObjectV (Val.obj id kind false)) = true) from
        Bool.false_ne_true),
    if_neg (show ¬(((rawFlag (Val.obj id kind false)).isSome &&
        !(vr.readonly && isReactiveFlag (Val.obj id kind false))) = true) from
        Bool.false_ne_true)]
  cases hl : lookupProxy s vr (Val.obj id kind false) with
  | some existing => rfl
  | none =>
    rw [if_neg hty]
    rfl

theorem createReactiveObject_found (s : ReactiveRegistry) (vr : Variant)
    (id : Nat) (kind : ObjKind) (p : Val) (hkind : kind ≠ ObjKind.otherK)
    (hl : lookupProxy s vr (Val.obj id kind false) = some p) :
    createReactiveObject s vr (Val.obj id kind false) = (s, p) := by
  rw [createReactiveObject_eq s vr id kind hkind, hl]

theorem createReactiveObject_fresh (s : ReactiveRegistry) (vr : Variant)
    (id : Nat) (kind : ObjKind) (hkind : kind ≠ ObjKind.otherK)
    (hl : lookupProxy s vr (Val.obj id kind false) = none) :
    createReactiveObject s vr (Val.obj id kind false) =
      (registerProxy s vr (Val.obj id kind false),
       Val.proxyOf (Val.obj id kind false) vr s.next) := by
  rw [createReactiveObject_eq s vr id kind hkind, hl]

theorem lookup_registerProxy (s : ReactiveRegistry) (vr : Variant) (t : Val) :
    lookupProxy (registerProxy s vr t) vr t =
      some (Val.proxyOf t vr s.next) := by
  unfold lookupProxy registerProxy
  simp

/-- C6: wrapping a raw object of a supported kind twice with the same variant
returns the same wrapper instance (and leaves the registry unchanged on the
second call), `toRaw` of the wrapper gives back the raw object, and
non-object values pass through `createReactiveObject` unchanged. -/
theorem createReactiveObject_wrap (st : ReactiveRegistry) (vr : Variant)
    (id : Nat) (kind : ObjKind) (hwf : RegWF st) (hkind : kind ≠ ObjKind.otherK) :
    createReactiveObject (createReactiveObject st vr (Val.obj id kind false)).1 vr
        (Val.obj id kind false) = createReactiveObject st vr (Val.obj id kind false) ∧
    toRaw (createReactiveObject st vr (Val.obj id kind false)).2 = Val.obj id kind false ∧
    (∀ t, isObjectV t = false → createReactiveObject st vr t = (st, t)) := by
  refine ⟨?_, ?_, ?_⟩
  · cases hl : lookupProxy st vr (Val.obj id kind false) with
    | some existing =>
      rw [createReactiveObject_found st vr id kind existing hkind hl]
      show createReactiveObject st vr (Val.obj id kind false) = _
      rw [createReactiveObject_found st vr id kind existing hkind hl]
    | none =>
      rw [createReactiveObject_fresh st vr id kind hkind hl]
      show createReactiveObject (registerProxy st vr (Val.obj id kind false)) vr
          (Val.obj id kind false) = _
      rw [createReactiveObject_found _ vr id kind _ hkind
        (lookup_registerProxy st vr (Val.obj id kind false))]
  · cases hl : lookupProxy st vr (Val.obj id kind false) with
    | some existing =>
      rw [createReactiveObject_found st vr id kind existing hkind hl]
      obtain ⟨pid, hp⟩ := lookupProxy_wf st hwf vr _ existing hl
      show toRaw existing = _
      rw [hp]
      rfl
    | none =>
      rw [createReactiveObject_fresh st vr id kind hkind hl]
      rfl
  · intro t ht
    unfold createReactiveObject
    rw [if_pos (show (!isObjectV t) = true from by rw [ht]; rfl)]

theorem createReactiveObject_wrap_witness :
    toRaw (createReactiveObject ⟨fun _ => [], 0⟩ ⟨false, false⟩
        (Val.obj 1 ObjKind.objectK false)).2 = Val.obj 1 ObjKind.objectK false :=
  (createReactiveObject_wrap ⟨fun _ => [], 0⟩ ⟨false, false⟩ 1 ObjKind.objectK
    (fun _ _ _ h => absurd h (List.not_mem_nil _))
    (fun hcon => ObjKind.noConfusion hcon)).2.1

/-- C7: `RefImpl.set value` compares the incoming value — unwrapped to raw
unless the ref is shallow or the value is shallow/readonly — against the
stored raw value with `hasChanged`, which treats `NaN` as equal to itself and
is strict inequality otherwise; when unchanged it is a complete no-op (no
store, no trigger), and when changed it stores the new raw value, re-wraps
(`toReactive` unless the direct-value path applies) and triggers. -/
theorem refSetValue_spec (st : ReactiveRegistry) (r : RefImplState) (nv : Val) :
    (hasChanged (if r.isShallowRef || isShallowFlag nv || isReadonlyFlag nv
        then nv else toRaw nv) r.rawValue = false →
      refSetValue st r nv = (st, r, false)) ∧
    (hasChanged (if r.isShallowRef || isShallowFlag nv || isReadonlyFlag nv
        then nv else toRaw nv) r.rawValue = true →
      (refSetValue st r nv).2.2 = true ∧
      (refSetValue st r nv).2.1.rawValue =
        (if r.isShallowRef || isShallowFlag nv || isReadonlyFlag nv
         then nv else toRaw nv) ∧
      (refSetValue st r nv).2.1.isShallowRef = r.isShallowRef ∧
      ((refSetValue st r nv).2.1.value, (refSetValue st r nv).1) =
        (if r.isShallowRef || isShallowFlag nv || isReadonlyFlag nv
         then (nv, st)
         else ((toReactive st (toRaw nv)).2, (toReactive st (toRaw nv)).1))) ∧
    (r.rawValue = Val.nanV → refSetValue st r Val.nanV = (st, r, false)) ∧
    (∀ a b : Val, hasChanged a b = true ↔ (¬(a = Val.nanV ∧ b = Val.nanV) ∧ a ≠ b)) := by
  refine ⟨?_, ?_, ?_, ?_⟩
  · intro h
    unfold refSetValue
    simp only []
    rw [if_neg (by rw [h]; exact Bool.false_ne_true)]
  · intro h
    unfold refSetValue
    simp only []
    rw [if_pos h]
    by_cases hd : (r.isShallowRef || isShallowFlag nv || isReadonlyFlag nv) = true
    · simp only [if_pos hd] at h ⊢
      exact ⟨trivial, trivial, trivial, trivial⟩
    · simp only [if_neg hd] at h ⊢
      exact ⟨trivial, trivial, trivial, trivial⟩
  · intro h
    unfold refSetValue
    simp only []
    have hdir : (if (r.isShallowRef || isShallowFlag Val.nanV || isReadonlyFlag Val.nanV) = true
        then Val.nanV else toRaw Val.nanV) = Val.nanV := by
      by_cases hd : (r.isShallowRef || isShallowFlag Val.nanV || isReadonlyFlag Val.nanV) = true
      · rw [if_pos hd]
      · rw [if_neg hd]
        rfl
    rw [hdir, h]
    rw [if_neg (show ¬(hasChanged Val.nanV Val.nanV = true) from by decide)]
  · intro a b
    unfold hasChanged
    by_cases ha : (a = Val.nanV ∧ b = Val.nanV)
    · obtain ⟨ha1, hb1⟩ := ha
      subst ha1
      subst hb1
      simp
    · have hcond : (decide (a = Val.nanV) && decide (b = Val.nanV)) = false := by
        rcases Decidable.not_and_iff_or_not.1 ha with h1 | h1 <;> simp [h1]
      rw [if_neg (by rw [hcond]; exact Bool.false_ne_true)]
      constructor
      · intro hdec
        exact ⟨ha, by simpa using hdec⟩
      · intro ⟨_, hne⟩
        simpa using hne

theorem refSetValue_spec_witness :
    refSetValue ⟨fun _ => [], 0⟩ ⟨Val.nanV, Val.nanV, false⟩ Val.nanV =
      (⟨fun _ => [], 0⟩, ⟨Val.nanV, Val.nanV, false⟩, false) :=
  (refSetValue_spec ⟨fun _ => [], 0⟩ ⟨Val.nanV, Val.nanV, false⟩ Val.nanV).2.2.1 rfl

theorem isRefV_toRaw (v : Val) : isRefV (toRaw v) = isRefV v := by
  induction v with
  | proxyOf t vr pid ih =>
    rw [show toRaw (Val.proxyOf t vr pid) = toRaw t from rfl,
      show isRefV (Val.proxyOf t vr pid) = isRefV t from rfl, ih]
  | undef => rfl
  | num n => rfl
  | nanV => rfl
  | obj id kind skip => rfl
  | refV rid => rfl

/-- C8: on a non-array mutable proxy, assigning a non-ref value to a property
currently holding a ref forwards the assignment into that ref's `.value`
setter (`refSetValue` on the ref cell, with the value deep-unwrapped unless
it is shallow/readonly), returns `true` from the trap, fires no own-property
trigger, and leaves the property itself still holding the same ref object;
the trap stays inside the modelled fragment (the result is `some`). -/
theorem mutableSet_ref_forward (h : Heap) (tid key rid : Nat) (kind : ObjKind)
    (v : Val) (hkind : kind ≠ ObjKind.arrayK)
    (hold : h.objs tid key = some (Val.refV rid)) (hv : isRefV v = false) :
    ∃ h2 : Heap, mutableSet h tid kind key v = some (h2, true, none) ∧
      h2.objs tid key = some (Val.refV rid) ∧
      h2.refs rid = (refSetValue h.registry (h.refs rid)
        (if (!isShallowFlag v && !isReadonlyFlag v) = true then toRaw v else v)).2.1 ∧
      h2.registry = (refSetValue h.registry (h.refs rid)
        (if (!isShallowFlag v && !isReadonlyFlag v) = true then toRaw v else v)).1 := by
  have hred : mutableSet h tid kind key v =
      some ({ h with
          registry := (refSetValue h.registry (h.refs rid)
            (if (!isShallowFlag v && !isReadonlyFlag v) = true then toRaw v else v)).1,
          refs := fupd h.refs rid (refSetValue h.registry (h.refs rid)
            (if (!isShallowFlag v && !isReadonlyFlag v) = true then toRaw v else v)).2.1 },
        true, none) := by
    unfold mutableSet
    simp only []
    rw [hold]
    rw [show ((some (Val.refV rid)).getD Val.undef) = Val.refV rid from rfl]
    rw [if_neg (show ¬((isReadonlyFlag (Val.refV rid) && isRefV (Val.refV rid) &&
      !isRefV v) = true) from Bool.false_ne_true)]
    have hov : (if (!isShallowFlag v && !isReadonlyFlag v) = true
        then toRaw (Val.refV rid) else Val.refV rid) = Val.refV rid := by
      by_cases hd : (!isShallowFlag v && !isReadonlyFlag v) = true
      · rw [if_pos hd]
        rfl
      · rw [if_neg hd]
    rw [hov]
    have hvv : isRefV (if (!isShallowFlag v && !isReadonlyFlag v) = true
        then toRaw v else v) = false := by
      by_cases hd : (!isShallowFlag v && !isReadonlyFlag v) = true
      · rw [if_pos hd, isRefV_toRaw, hv]
      · rw [if_neg hd, hv]
    rw [if_pos (show (!(decide (kind = ObjKind.arrayK)) && isRefV (Val.refV rid) &&
        !isRefV (if (!isShallowFlag v && !isReadonlyFlag v) = true then toRaw v else v)) =
        true from by
      rw [hvv]
      rw [decide_eq_false hkind]
      rfl)]
  refine ⟨_, hred, hold, ?_, rfl⟩
  show fupd h.refs rid _ rid = _
  rw [fupd_self]

theorem mutableSet_ref_forward_witness :
    ∃ h2 : Heap, mutableSet ⟨⟨fun _ => [], 0⟩, fun _ => ⟨Val.num 1, Val.num 1, false⟩,
        fun _ _ => some (Val.refV 0)⟩ 0 ObjKind.objectK 0 (Val.num 2) =
        some (h2, true, none) ∧
      h2.objs 0 0 = some (Val.refV 0) ∧
      h2.refs 0 = (refSetValue ⟨fun _ => [], 0⟩ ⟨Val.num 1, Val.num 1, false⟩
        (if (!isShallowFlag (Val.num 2) && !isReadonlyFlag (Val.num 2)) = true
         then toRaw (Val.num 2) else Val.num 2)).2.1 ∧
      h2.registry = (refSetValue ⟨fun _ => [], 0⟩ ⟨Val.num 1, Val.num 1, false⟩
        (if (!isShallowFlag (Val.num 2) && !isReadonlyFlag (Val.num 2)) = true
         then toRaw (Val.num 2) else Val.num 2)).1 :=
  mutableSet_ref_forward ⟨⟨fun _ => [], 0⟩, fun _ => ⟨Val.num 1, Val.num 1, false⟩,
      fun _ _ => some (Val.refV 0)⟩ 0 0 0 ObjKind.objectK (Val.num 2)
    (fun hcon => ObjKind.noConfusion hcon) rfl rfl

/-- C9: an active, non-self-recursive `run()` restores all four tracking
globals — `activeEffect`, `shouldTrack`, `effectTrackDepth` and `trackOpBit`
— to their prior values when it finishes, whether the wrapped body completed
or threw (the restore happens in the `finally` block), given the standing
invariants that `trackOpBit` matches the current depth and that the body
leaves the depth counter balanced. -/
theorem effectRun_restore (heap : Nat → EffRec) (e : Nat)
    (fn : Globals → Globals × Bool) (fuel : Nat) (g : Globals)
    (hact : (heap e).active = true)
    (hinv : g.trackOpBit = 1 <<< g.effectTrackDepth)
    (hfn : ∀ g2, (fn g2).1.effectTrackDepth = g2.effectTrackDepth) :
    (effectRun heap e fn fuel g).1 = g := by
  unfold effectRun
  rw [if_neg (show ¬((!(heap e).active) = true) from by rw [hact]; exact Bool.false_ne_true)]
  by_cases hch : inParentChain heap e g.activeEffect fuel = true
  · rw [if_pos hch]
  · rw [if_neg hch]
    simp only []
    rw [hfn]
    rcases g with ⟨ga, gs, gd, gb⟩
    simp only [Globals.mk.injEq, Nat.add_sub_cancel]
    exact ⟨trivial, trivial, trivial, hinv.symm⟩

theorem effectRun_restore_witness :
    (effectRun (fun _ => ⟨true, none, false⟩) 0
      (fun g2 => ({ g2 with shouldTrack := false, activeEffect := some 9 }, false))
      5 ⟨none, true, 0, 1⟩).1 = ⟨none, true, 0, 1⟩ :=
  effectRun_restore (fun _ => ⟨true, none, false⟩) 0
    (fun g2 => ({ g2 with shouldTrack := false, activeEffect := some 9 }, false))
    5 ⟨none, true, 0, 1⟩ rfl rfl (fun _ => rfl)
